import Mathlib

/-!
Verification development for the east-village-everything directory application.

The development shallowly embeds the data model and the repository operations
of the application: the `tags` / `places` / `place_tags` tables become lists of
records inside a `DbState`, and each repository method (`TagModel.create`,
`TagModel.update`, `TagModel.delete`, `TagModel.bulkSave`,
`TagModel.findAllStructured`, `PlaceModel.create`, `PlaceModel.update`,
`PlaceModel.findAll`, `PlaceModel.findById`) becomes an executable Lean
function over `DbState`, translated statement by statement from the source.
Ids are natural numbers (standing for the uuid keys), timestamps are naturals,
and SQL strings are Lean `String`s.
-/

namespace EVE

/-- A row of the `tags` table (migration 002 adds `parent_tag_id` with
`ON DELETE CASCADE` and the derived `has_children` flag). -/
structure Tag where
  id : Nat
  value : String
  display : String
  sort_order : Int
  parent_tag_id : Option Nat
  has_children : Bool
  created_at : Nat
  updated_at : Nat
deriving DecidableEq

/-- The `TagInput` interface of the tag model. -/
structure TagInput where
  value : String
  display : String
  sort_order : Int
  parent_tag_id : Option Nat := none
deriving DecidableEq

/-- A `Partial<TagInput>` patch: a field is applied only when present. -/
structure TagPatch where
  value : Option String := none
  display : Option String := none
  sort_order : Option Int := none
  parent_tag_id : Option (Option Nat) := none
deriving DecidableEq

/-- A row of the `places` table (without the aggregated tag values). -/
structure PlaceRow where
  id : Nat
  name : String
  address : Option String
  phone : Option String
  url : Option String
  specials : Option String
  categories : Option String
  notes : Option String
  created_at : Nat
  updated_at : Nat
deriving DecidableEq

/-- The `PlaceInput` interface of the place model. -/
structure PlaceInput where
  name : String
  address : Option String := none
  phone : Option String := none
  url : Option String := none
  specials : Option String := none
  categories : Option String := none
  notes : Option String := none
  tags : Option (List String) := none
deriving DecidableEq

/-- A `Partial<PlaceInput>` patch. -/
structure PlacePatch where
  name : Option String := none
  address : Option String := none
  phone : Option String := none
  url : Option String := none
  specials : Option String := none
  categories : Option String := none
  notes : Option String := none
  tags : Option (List String) := none
deriving DecidableEq

/-- The relational store: the three tables the repositories touch.
`placeTags` is the junction table, a list of `(place_id, tag_id)` pairs. -/
structure DbState where
  tags : List Tag
  places : List PlaceRow
  placeTags : List (Nat × Nat)
deriving DecidableEq

/-- The aggregated record returned by the place queries: the row joined with
the ordered list of its tag values. -/
structure Place extends PlaceRow where
  tags : List String
deriving DecidableEq

/-! ### Text normalization helpers of the place model -/

/-- JavaScript `x || null` on an optional string: the empty string is falsy
and collapses to null. -/
def orNull (o : Option String) : Option String :=
  match o with
  | none => none
  | some s => if s = "" then none else some s

/-- `normalizePhone` from `models/place.ts`: falsy input gives null; otherwise
strip all non-digits and keep the result only when exactly 10 digits remain. -/
def normalizePhone (phone : Option String) : Option String :=
  match phone with
  | none => none
  | some p =>
    if p = "" then none
    else
      let digits := p.data.filter Char.isDigit
      if digits.length = 10 then some (String.mk digits) else none

/-- One step of the global regex replace of `/\r?\n/` by the break marker:
`\r\n` and bare `\n` both become the five characters of the marker. -/
def toHtmlBreaksL : List Char → List Char
  | [] => []
  | '\r' :: '\n' :: rest => '<' :: 'b' :: 'r' :: '/' :: '>' :: toHtmlBreaksL rest
  | '\n' :: rest => '<' :: 'b' :: 'r' :: '/' :: '>' :: toHtmlBreaksL rest
  | c :: rest => c :: toHtmlBreaksL rest

/-- `toHtmlBreaks` from `models/place.ts`: falsy text gives null, otherwise
every newline (bare or carriage-return prefixed) becomes the break marker. -/
def toHtmlBreaks (text : Option String) : Option String :=
  match text with
  | none => none
  | some s => if s = "" then none else some (String.mk (toHtmlBreaksL s.data))

/-- The whitespace class of the `\s` in the edit-form regex, restricted to the
ASCII whitespace characters. -/
def isJsSpace (c : Char) : Bool :=
  c = ' ' || c = '\t' || c = '\n' || c = '\x0b' || c = '\x0c' || c = '\r'

/-- After the three characters of the opening of a break marker, consume
whitespace, an optional slash, and the closing angle bracket; return the
remaining characters on success. -/
def brTail : List Char → Option (List Char)
  | [] => none
  | '>' :: rest => some rest
  | '/' :: '>' :: rest => some rest
  | c :: rest => if isJsSpace c then brTail rest else none

/-- Match the edit-form regex for a break marker at the head of the input:
a literal opening bracket, the two letters of `br` (case-insensitive),
optional whitespace, an optional slash, and a closing bracket. -/
def brMatch : List Char → Option (List Char)
  | c :: b :: r :: rest =>
    if c = '<' && (b = 'b' || b = 'B') && (r = 'r' || r = 'R') then brTail rest
    else none
  | _ => none

/-- Fuelled scanner for the global replace of break markers by newlines,
as the edit route performs on `specials` and `notes` before rendering the
form.  Fuel is an upper bound on the number of characters consumed. -/
def fromHtmlBreaksFuel : Nat → List Char → List Char
  | 0, l => l
  | _ + 1, [] => []
  | fuel + 1, c :: rest =>
    match brMatch (c :: rest) with
    | some rest2 => '\n' :: fromHtmlBreaksFuel fuel rest2
    | none => c :: fromHtmlBreaksFuel fuel rest

/-- The global replace of break markers by newlines over a character list. -/
def fromHtmlBreaksL (l : List Char) : List Char :=
  fromHtmlBreaksFuel l.length l

/-- The edit-form load transform from `routes/admin.ts`: a stored field is
rewritten by replacing each break marker with a newline; a null field becomes
the empty string. -/
def editLoadField (stored : Option String) : String :=
  match stored with
  | none => ""
  | some s => String.mk (fromHtmlBreaksL s.data)

/-! ### Orderings used by the SQL `ORDER BY` clauses -/

/-- `ORDER BY sort_order ASC, value ASC` on tags. -/
def tagOrder (a b : Tag) : Prop :=
  a.sort_order < b.sort_order ∨ (a.sort_order = b.sort_order ∧ a.value ≤ b.value)

instance : DecidableRel tagOrder := fun a b =>
  inferInstanceAs (Decidable (a.sort_order < b.sort_order ∨
    (a.sort_order = b.sort_order ∧ a.value ≤ b.value)))

instance : IsTotal Tag tagOrder := by
  constructor
  intro a b
  rcases lt_trichotomy a.sort_order b.sort_order with h | h | h
  · exact Or.inl (Or.inl h)
  · rcases le_total a.value b.value with hv | hv
    · exact Or.inl (Or.inr ⟨h, hv⟩)
    · exact Or.inr (Or.inr ⟨h.symm, hv⟩)
  · exact Or.inr (Or.inl h)

instance : IsTrans Tag tagOrder := by
  constructor
  intro a b c hab hbc
  rcases hab with h1 | ⟨e1, v1⟩
  · rcases hbc with h2 | ⟨e2, _⟩
    · exact Or.inl (h1.trans h2)
    · exact Or.inl (e2 ▸ h1)
  · rcases hbc with h2 | ⟨e2, v2⟩
    · exact Or.inl (e1 ▸ h2)
    · exact Or.inr ⟨e1.trans e2, v1.trans v2⟩

/-- `ORDER BY t.sort_order` inside the tag aggregation of the place queries. -/
def sortOrderLe (a b : Tag) : Prop := a.sort_order ≤ b.sort_order

instance : DecidableRel sortOrderLe := fun a b =>
  inferInstanceAs (Decidable (a.sort_order ≤ b.sort_order))

instance : IsTotal Tag sortOrderLe := ⟨fun a b => le_total a.sort_order b.sort_order⟩

instance : IsTrans Tag sortOrderLe := ⟨fun _ _ _ h1 h2 => le_trans h1 h2⟩

/-- `ORDER BY p.name ASC` on places. -/
def nameLe (a b : PlaceRow) : Prop := a.name ≤ b.name

instance : DecidableRel nameLe := fun a b =>
  inferInstanceAs (Decidable (a.name ≤ b.name))

instance : IsTotal PlaceRow nameLe := ⟨fun a b => le_total a.name b.name⟩

instance : IsTrans PlaceRow nameLe := ⟨fun _ _ _ h1 h2 => le_trans h1 h2⟩

/-! ### Tag model (`TagModel` of the hierarchical tag store) -/

/-- The `EXISTS(SELECT 1 FROM tags WHERE parent_tag_id = $1)` subquery of
`updateHasChildren`. -/
def hasChildrenOf (tags : List Tag) (pid : Nat) : Bool :=
  tags.any (fun t => t.parent_tag_id = some pid)

/-- `TagModel.updateHasChildren`: set the flag of the given tag from the
existence check, leaving every other row alone. -/
def updateHasChildren (pid : Nat) (s : DbState) : DbState :=
  { s with tags := s.tags.map (fun t =>
      if t.id = pid then { t with has_children := hasChildrenOf s.tags pid } else t) }

/-- `TagModel.findById`: first row whose id matches, or null. -/
def tagFindById (s : DbState) (id : Nat) : Option Tag :=
  s.tags.find? (fun t => t.id = id)

/-- `TagModel.findAll`: all tags ordered by `(sort_order, value)`. -/
def tagFindAll (s : DbState) : List Tag :=
  List.insertionSort tagOrder s.tags

/-- The row inserted by `TagModel.create`: `has_children` starts false by
column default. -/
def tagCreateRow (d : TagInput) (nid now : Nat) : Tag :=
  { id := nid, value := d.value, display := d.display, sort_order := d.sort_order,
    parent_tag_id := d.parent_tag_id, has_children := false,
    created_at := now, updated_at := now }

/-- `TagModel.create`: insert the row (`has_children` defaults to false), then
recompute the parent's flag when a parent id was supplied. -/
def tagCreate (d : TagInput) (nid now : Nat) (s : DbState) : DbState × Tag :=
  let row := tagCreateRow d nid now
  let s1 : DbState := { s with tags := s.tags ++ [row] }
  let s2 := match d.parent_tag_id with
    | some pid => updateHasChildren pid s1
    | none => s1
  (s2, row)

/-- The assignment list of the dynamic `UPDATE` built by `TagModel.update`:
only supplied fields are written, plus the `updated_at` bump. -/
def applyTagPatch (d : TagPatch) (now : Nat) (t : Tag) : Tag :=
  { t with
    value := d.value.getD t.value,
    display := d.display.getD t.display,
    sort_order := d.sort_order.getD t.sort_order,
    parent_tag_id := match d.parent_tag_id with
      | some p => p
      | none => t.parent_tag_id,
    updated_at := now }

/-- `TagModel.update`: look the row up, short-circuit on an empty patch,
apply the dynamic update, and recompute `has_children` for the old and new
parents when the parent reference changed. -/
def tagUpdateApply (id : Nat) (d : TagPatch) (now : Nat) (s : DbState) : DbState :=
  { s with tags := s.tags.map (fun t =>
    if t.id = id then applyTagPatch d now t else t) }

def tagUpdate (id : Nat) (d : TagPatch) (now : Nat) (s : DbState) :
    DbState × Option Tag :=
  match tagFindById s id with
  | none => (s, none)
  | some oldTag =>
    if d.value.isSome || d.display.isSome || d.sort_order.isSome
        || d.parent_tag_id.isSome then
      let s1 := tagUpdateApply id d now s
      let ret := s1.tags.find? (fun t => t.id = id)
      let s2 := match d.parent_tag_id with
        | none => s1
        | some newP =>
          if oldTag.parent_tag_id = newP then s1
          else
            let sA := match oldTag.parent_tag_id with
              | some op => updateHasChildren op s1
              | none => s1
            match newP with
            | some np => updateHasChildren np sA
            | none => sA
      (s2, ret)
    else (s, some oldTag)

/-- One round of the referential cascade: ids of rows whose parent is already
dead but which are not themselves recorded dead yet. -/
def cascadeStep (tags : List Tag) (acc : List Nat) : List Nat :=
  (tags.filter (fun t =>
    !(acc.contains t.id) &&
      (match t.parent_tag_id with
       | some p => acc.contains p
       | none => false))).map (fun t => t.id)

/-- Fuelled iteration of the cascade to a fixpoint. -/
def cascadeAux : Nat → List Tag → List Nat → List Nat
  | 0, _, acc => acc
  | n + 1, tags, acc =>
    let next := cascadeStep tags acc
    if next = [] then acc else cascadeAux n tags (acc ++ next)

/-- The set of tag ids removed by `DELETE` on the seed ids together with the
`ON DELETE CASCADE` closure over `parent_tag_id`. -/
def cascadeDead (tags : List Tag) (seed : List Nat) : List Nat :=
  cascadeAux tags.length tags seed

/-- `TagModel.delete`: read the row (for its parent id), delete the junction
rows of the tag, delete the tag row (children and their junction rows go by
cascade), then recompute the former parent's flag. -/
def tagDeleteApply (id : Nat) (s : DbState) : DbState :=
  let s1 : DbState := { s with placeTags := s.placeTags.filter (fun pt => pt.2 ≠ id) }
  let dead := cascadeDead s1.tags [id]
  { s1 with
    tags := s1.tags.filter (fun t => !(dead.contains t.id)),
    placeTags := s1.placeTags.filter (fun pt => !(dead.contains pt.2)) }

def tagDelete (id : Nat) (s : DbState) : DbState × Bool :=
  match tagFindById s id with
  | none => (s, false)
  | some tag =>
    let s2 := tagDeleteApply id s
    let s3 := match tag.parent_tag_id with
      | some pid => updateHasChildren pid s2
      | none => s2
    (s3, true)

/-! ### Structured tag presenter (`TagModel.findAllStructured`) -/

/-- A parent tag carrying its children, as the structured view returns it. -/
structure TagWithChildren where
  tag : Tag
  children : List Tag
deriving DecidableEq

/-- The `{ parents, standalone }` shape of the structured view. -/
structure StructuredTags where
  parents : List TagWithChildren
  standalone : List Tag
deriving DecidableEq

/-- The parent-to-children map built by `findAllStructured`: a fold over the
child tags, appending each child to the bucket of its parent id. -/
def childrenByParent (childTags : List Tag) : Nat → List Tag :=
  childTags.foldl
    (fun m c =>
      match c.parent_tag_id with
      | some pid => fun k => if k = pid then m k ++ [c] else m k
      | none => m)
    (fun _ => [])

/-- `TagModel.findAllStructured`: split the flat ordered tag list into parent
tags (by the `has_children` flag) with their children, and standalone tags
(no parent and no children). -/
def findAllStructured (s : DbState) : StructuredTags :=
  let allTags := tagFindAll s
  let parentTags := allTags.filter (fun t => t.has_children)
  let childTags := allTags.filter (fun t => t.parent_tag_id.isSome)
  let standaloneTags := allTags.filter
    (fun t => !t.has_children && t.parent_tag_id = none)
  let m := childrenByParent childTags
  { parents := parentTags.map (fun p => { tag := p, children := m p.id }),
    standalone := standaloneTags }

/-! ### Place model (`PlaceModel`) -/

/-- The tags of a place as the aggregation subquery produces them: the tag
rows joined through the junction table, ordered by `sort_order`. -/
def assocTags (s : DbState) (pid : Nat) : List Tag :=
  List.insertionSort sortOrderLe
    (s.tags.filter (fun t => s.placeTags.contains (pid, t.id)))

/-- The aggregated tag-value array of a place. -/
def placeTagValues (s : DbState) (pid : Nat) : List String :=
  (assocTags s pid).map (fun t => t.value)

/-- `PlaceModel.findById`: the row with the aggregated tag values, or null. -/
def placeFindById (s : DbState) (id : Nat) : Option Place :=
  (s.places.find? (fun p => p.id = id)).map
    (fun p => { toPlaceRow := p, tags := placeTagValues s id })

/-- Whether a place is associated with a tag of the given value, as the
`IN (SELECT place_id ... WHERE t2.value = $1)` filter tests it. -/
def placeHasTagValue (s : DbState) (pid : Nat) (v : String) : Bool :=
  s.placeTags.any (fun pt =>
    pt.1 = pid && s.tags.any (fun t => t.id = pt.2 && t.value = v))

/-- `PlaceModel.findAll`: all places (optionally restricted to those carrying
the filter tag), each with its aggregated tag values, ordered by name. -/
def placeFindAll (s : DbState) (tagFilter : Option String) : List Place :=
  let base := match tagFilter with
    | none => s.places
    | some v => s.places.filter (fun p => placeHasTagValue s p.id v)
  (List.insertionSort nameLe base).map
    (fun p => { toPlaceRow := p, tags := placeTagValues s p.id })

/-- The first statement of `PlaceModel.setTags`: delete all junction rows of
the place. -/
def setTagsDeleteStmt (pid : Nat) (s : DbState) : DbState :=
  { s with placeTags := s.placeTags.filter (fun pt => pt.1 ≠ pid) }

/-- The second statement of `PlaceModel.setTags`: insert one junction row per
tag whose value occurs in the given list (skipped for an empty list). -/
def setTagsInsertStmt (pid : Nat) (tagValues : List String) (s : DbState) : DbState :=
  if tagValues = [] then s
  else
    let inserts := (s.tags.filter (fun t => tagValues.contains t.value)).map
      (fun t => (pid, t.id))
    { s with placeTags := s.placeTags ++ inserts }

/-- `PlaceModel.setTags`: delete all junction rows of the place, then insert
one junction row per tag whose value occurs in the given list. -/
def setTags (pid : Nat) (tagValues : List String) (s : DbState) : DbState :=
  setTagsInsertStmt pid tagValues (setTagsDeleteStmt pid s)

/-- The row inserted by `PlaceModel.create`, with the normalizations the
insert applies to each column. -/
def placeInsertRow (d : PlaceInput) (nid now : Nat) : PlaceRow :=
  { id := nid, name := d.name, address := orNull d.address,
    phone := normalizePhone d.phone, url := orNull d.url,
    specials := toHtmlBreaks d.specials, categories := orNull d.categories,
    notes := toHtmlBreaks d.notes, created_at := now, updated_at := now }

/-- `PlaceModel.create`: insert the normalized row, replace the tag
associations when a non-empty tag list was supplied, and re-read the full
record. -/
def placeCreate (d : PlaceInput) (nid now : Nat) (s : DbState) :
    DbState × Option Place :=
  let row := placeInsertRow d nid now
  let s1 : DbState := { s with places := s.places ++ [row] }
  let s2 := match d.tags with
    | some ts => if 0 < ts.length then setTags nid ts s1 else s1
    | none => s1
  (s2, placeFindById s2 nid)

/-- Whether a place patch carries at least one real column (the tag list does
not count: tag replacement is handled separately). -/
def patchHasRealField (d : PlacePatch) : Bool :=
  d.name.isSome || d.address.isSome || d.phone.isSome || d.url.isSome
    || d.specials.isSome || d.categories.isSome || d.notes.isSome

/-- The assignment list of the dynamic `UPDATE` built by `PlaceModel.update`:
only supplied fields are written (with the same normalizations as the
insert), plus the `updated_at` bump. -/
def applyPlacePatch (d : PlacePatch) (now : Nat) (p : PlaceRow) : PlaceRow :=
  { p with
    name := d.name.getD p.name,
    address := match d.address with
      | some a => orNull (some a)
      | none => p.address,
    phone := match d.phone with
      | some ph => normalizePhone (some ph)
      | none => p.phone,
    url := match d.url with
      | some u => orNull (some u)
      | none => p.url,
    specials := match d.specials with
      | some sp => toHtmlBreaks (some sp)
      | none => p.specials,
    categories := match d.categories with
      | some c => orNull (some c)
      | none => p.categories,
    notes := match d.notes with
      | some n0 => toHtmlBreaks (some n0)
      | none => p.notes,
    updated_at := now }

/-- `PlaceModel.update`: when the patch has a real column, run the dynamic
update (a missing row is a not-found result and nothing else runs); then
replace the tag associations when a tag list was supplied; finally re-read
the record. -/
def placeUpdate (id : Nat) (d : PlacePatch) (now : Nat) (s : DbState) :
    DbState × Option Place :=
  if patchHasRealField d then
    if s.places.any (fun p => p.id = id) then
      let s1 : DbState := { s with places := s.places.map (fun p =>
        if p.id = id then applyPlacePatch d now p else p) }
      let s2 := match d.tags with
        | some ts => setTags id ts s1
        | none => s1
      (s2, placeFindById s2 id)
    else (s, none)
  else
    let s2 := match d.tags with
      | some ts => setTags id ts s
      | none => s
    (s2, placeFindById s2 id)

/-! ### Tag bulk save (`TagModel.bulkSave`) -/

/-- Lookup in the `existingByValue` map: the map is built by inserting the
rows of the opening `SELECT *` in order, so a later row with the same value
overwrites an earlier one. -/
def tagSnapshotGet (rows : List Tag) (v : String) : Option Tag :=
  rows.reverse.find? (fun t => t.value = v)

/-- One iteration of the upsert loop of `bulkSave`: update the snapshot row
matching the value (display and sort order only), or insert a new row with
the next fresh id. -/
def bulkUpsertStep (snapshot : List Tag) (now : Nat) (st : DbState × Nat)
    (d : TagInput) : DbState × Nat :=
  match tagSnapshotGet snapshot d.value with
  | some ex =>
    ({ st.1 with tags := st.1.tags.map (fun t =>
        if t.id = ex.id then
          { t with display := d.display, sort_order := d.sort_order, updated_at := now }
        else t) }, st.2)
  | none =>
    ({ st.1 with tags := st.1.tags ++
        [{ id := st.2, value := d.value, display := d.display,
           sort_order := d.sort_order, parent_tag_id := d.parent_tag_id,
           has_children := false, created_at := now, updated_at := now }] },
      st.2 + 1)

/-- The delete statement of `bulkSave`: remove every existing tag whose value
is absent from the input (skipped when there is nothing to delete), together
with the referential cascade on child tags and junction rows. -/
def bulkDeleteStmt (input : List TagInput) (s : DbState) : DbState :=
  let newValues := input.map (fun d => d.value)
  let toDelete := s.tags.filter (fun t => !(newValues.contains t.value))
  if toDelete = [] then s
  else
    let dead := cascadeDead s.tags (toDelete.map (fun t => t.id))
    { s with
      tags := s.tags.filter (fun t => !(dead.contains t.id)),
      placeTags := s.placeTags.filter (fun pt => !(dead.contains pt.2)) }

/-- `TagModel.bulkSave`: inside one transaction, snapshot the existing tags,
delete the tags whose value is absent from the input, then upsert each input
entry against the snapshot; finally return all tags in display order. -/
def bulkSave (input : List TagInput) (now nid : Nat) (s : DbState) :
    DbState × List Tag :=
  let snapshot := s.tags
  let s1 := bulkDeleteStmt input s
  let fin := input.foldl (bulkUpsertStep snapshot now) (s1, nid)
  (fin.1, List.insertionSort tagOrder fin.1.tags)

/-! ### Transaction wrapping of the multi-statement sequences

Each repository method that issues several SQL statements is embedded as a
`DbProgram`: the list of its statements as state transformers, together with
whether the source wraps the sequence in `withTransaction`.  A failure after
`k` statements leaves the state produced by those `k` statements when the
sequence is not wrapped, and the initial state (rollback) when it is. -/

structure DbProgram where
  txWrapped : Bool
  stmts : List (DbState → DbState)

/-- Run a program to completion. -/
def runAll (prog : DbProgram) (s : DbState) : DbState :=
  prog.stmts.foldl (fun st f => f st) s

/-- The state observable after a failure that strikes once `k` statements of
the program have executed: rollback restores the initial state for a wrapped
sequence, while an unwrapped sequence keeps the effects of its prefix. -/
def runFailAt (prog : DbProgram) (s : DbState) (k : Nat) : DbState :=
  if prog.txWrapped then s
  else (prog.stmts.take k).foldl (fun st f => f st) s

/-- The statement sequence of `PlaceModel.create` (insert, optional tag
replacement, re-read), wrapped in `withTransaction`. -/
def placeCreateProg (d : PlaceInput) (nid now : Nat) : DbProgram :=
  let insertStmt : DbState → DbState := fun s =>
    { s with places := s.places ++ [placeInsertRow d nid now] }
  let tagStmts : List (DbState → DbState) := match d.tags with
    | some ts =>
      if 0 < ts.length then [setTagsDeleteStmt nid, setTagsInsertStmt nid ts]
      else []
    | none => []
  { txWrapped := true,
    stmts := insertStmt :: tagStmts ++ [fun s => s] }

/-- The statement sequence of `PlaceModel.update` on its success path
(dynamic update, optional tag replacement, re-read), wrapped in
`withTransaction`. -/
def placeUpdateProg (id : Nat) (d : PlacePatch) (now : Nat) : DbProgram :=
  let updStmt : DbState → DbState := fun s =>
    { s with places := s.places.map (fun p =>
      if p.id = id then applyPlacePatch d now p else p) }
  let updStmts : List (DbState → DbState) :=
    if patchHasRealField d then [updStmt] else []
  let tagStmts : List (DbState → DbState) := match d.tags with
    | some ts => [setTagsDeleteStmt id, setTagsInsertStmt id ts]
    | none => []
  { txWrapped := true,
    stmts := updStmts ++ tagStmts ++ [fun s => s] }

/-- The upsert statements of `bulkSave`, one per input entry, threading the
fresh-id counter exactly as the loop does. -/
def bulkUpsertStmts (snapshot : List Tag) (now : Nat) :
    List TagInput → Nat → List (DbState → DbState)
  | [], _ => []
  | d :: rest, ctr =>
    (fun s => (bulkUpsertStep snapshot now (s, ctr) d).1) ::
      bulkUpsertStmts snapshot now rest
        (match tagSnapshotGet snapshot d.value with
         | some _ => ctr
         | none => ctr + 1)

/-- The statement sequence of `TagModel.bulkSave` (snapshot read, bulk
delete, one upsert per input entry, final read), wrapped in
`withTransaction`.  The snapshot is the tag table at transaction start. -/
def bulkSaveProg (input : List TagInput) (now nid : Nat) (s0 : DbState) : DbProgram :=
  { txWrapped := true,
    stmts := [fun s => s, bulkDeleteStmt input] ++
      bulkUpsertStmts s0.tags now input nid ++ [fun s => s] }

/-- The statement sequence of `TagModel.delete`: the lookup, the junction
delete, the cascading tag delete, and the parent recomputation, issued as
independent statements with no `withTransaction` wrapper. -/
def tagDeleteProg (id : Nat) (s0 : DbState) : DbProgram :=
  { txWrapped := false,
    stmts := match tagFindById s0 id with
      | none => [fun s => s]
      | some tag =>
        [fun s => s,
         fun s => { s with placeTags := s.placeTags.filter (fun pt => pt.2 ≠ id) },
         fun s =>
           let dead := cascadeDead s.tags [id]
           { s with
             tags := s.tags.filter (fun t => !(dead.contains t.id)),
             placeTags := s.placeTags.filter (fun pt => !(dead.contains pt.2)) }] ++
        (match tag.parent_tag_id with
         | some pid => [fun s => updateHasChildren pid s]
         | none => []) }

/-- The statement sequence of `TagModel.update` with a parent change: the
lookup, the dynamic update, and the two parent recomputations, issued as
independent statements with no `withTransaction` wrapper. -/
def tagUpdateProg (id : Nat) (d : TagPatch) (now : Nat) (s0 : DbState) : DbProgram :=
  { txWrapped := false,
    stmts := match tagFindById s0 id with
      | none => [fun s => s]
      | some oldTag =>
        if d.value.isSome || d.display.isSome || d.sort_order.isSome
            || d.parent_tag_id.isSome then
          [fun s => s,
           fun s => { s with tags := s.tags.map (fun t =>
             if t.id = id then applyTagPatch d now t else t) }] ++
          (match d.parent_tag_id with
           | none => []
           | some newP =>
             if oldTag.parent_tag_id = newP then []
             else
               (match oldTag.parent_tag_id with
                | some op => [fun s => updateHasChildren op s]
                | none => []) ++
               (match newP with
                | some np => [fun s => updateHasChildren np s]
                | none => []))
        else [fun s => s] }

/-! ### Phone normalization (claim C5) -/

/-- C5: place create and update store, after stripping all non-digit
characters from the phone input, exactly the 10-digit result when exactly 10
digits remain, and null otherwise; `(212) 555-1234` is stored as
`2125551234`, and `555-1234` is stored as null. -/
theorem phone_normalization_spec :
    (∀ p : String,
      normalizePhone (some p) =
        (if (p.data.filter Char.isDigit).length = 10
         then some (String.mk (p.data.filter Char.isDigit)) else none)) ∧
    (∀ d nid now, (placeInsertRow d nid now).phone = normalizePhone d.phone) ∧
    (∀ p q now, (applyPlacePatch { phone := some p } now q).phone
      = normalizePhone (some p)) ∧
    normalizePhone (some "(212) 555-1234") = some "2125551234" ∧
    normalizePhone (some "555-1234") = none := by
  refine ⟨?_, ?_, ?_, by decide, by decide⟩
  · intro p
    by_cases hp : p = ""
    · subst hp; rfl
    · simp [normalizePhone, hp]
  · intro d nid now; rfl
  · intro p q now; rfl

/-! ### Newline round-trip (claim C4) -/

/-- The global replace leaves a character other than a newline or a carriage
return in place. -/
theorem toHtmlBreaksL_cons_ne (c : Char) (rest : List Char)
    (h1 : c ≠ '\n') (h2 : c ≠ '\r') :
    toHtmlBreaksL (c :: rest) = c :: toHtmlBreaksL rest := by
  cases rest with
  | nil => simp [toHtmlBreaksL, h1]
  | cons c2 rest2 =>
    by_cases hc2 : c2 = '\n' <;> simp [toHtmlBreaksL, h1, h2, hc2]

/-- A bare newline becomes the five-character break marker. -/
theorem toHtmlBreaksL_cons_nl (rest : List Char) :
    toHtmlBreaksL ('\n' :: rest)
      = '<' :: 'b' :: 'r' :: '/' :: '>' :: toHtmlBreaksL rest := by
  cases rest with
  | nil => rfl
  | cons c2 rest2 => simp [toHtmlBreaksL]

/-- The break-marker regex does not match at a character other than the
opening bracket. -/
theorem brMatch_cons_ne (c : Char) (t : List Char) (h : c ≠ '<') :
    brMatch (c :: t) = none := by
  rcases t with _ | ⟨b, t2⟩
  · rfl
  rcases t2 with _ | ⟨r, t3⟩
  · rfl
  · simp [brMatch, h]

/-- The break-marker regex consumes exactly an inserted marker. -/
theorem brMatch_marker (t : List Char) :
    brMatch ('<' :: 'b' :: 'r' :: '/' :: '>' :: t) = some t := rfl

/-- Round trip at the character-list level, with explicit fuel: replacing the
markers of an encoded text restores the text, provided it held no carriage
return and no opening bracket. -/
theorem fromFuel_toHtml_roundtrip (l : List Char) :
    ∀ fuel, (toHtmlBreaksL l).length ≤ fuel →
      '\r' ∉ l → '<' ∉ l →
      fromHtmlBreaksFuel fuel (toHtmlBreaksL l) = l := by
  induction l with
  | nil =>
    intro fuel _ _ _
    cases fuel <;> rfl
  | cons c rest ih =>
    intro fuel hf hr hlt
    have hcr : c ≠ '\r' := fun h => hr (h ▸ List.mem_cons_self c rest)
    have hclt : c ≠ '<' := fun h => hlt (h ▸ List.mem_cons_self c rest)
    have hr2 : '\r' ∉ rest := fun h => hr (List.mem_cons_of_mem c h)
    have hlt2 : '<' ∉ rest := fun h => hlt (List.mem_cons_of_mem c h)
    by_cases hc : c = '\n'
    · subst hc
      rw [toHtmlBreaksL_cons_nl] at hf ⊢
      rcases fuel with _ | f
      · simp at hf
      · rw [fromHtmlBreaksFuel, brMatch_marker]
        have hf2 : (toHtmlBreaksL rest).length ≤ f := by
          simp only [List.length_cons] at hf; omega
        show ('\n' :: fromHtmlBreaksFuel f (toHtmlBreaksL rest) : List Char)
          = '\n' :: rest
        rw [ih f hf2 hr2 hlt2]
    · rw [toHtmlBreaksL_cons_ne c rest hc hcr] at hf ⊢
      rcases fuel with _ | f
      · simp at hf
      · rw [fromHtmlBreaksFuel, brMatch_cons_ne c _ hclt]
        have hf2 : (toHtmlBreaksL rest).length ≤ f := by
          simp only [List.length_cons] at hf; omega
        show (c :: fromHtmlBreaksFuel f (toHtmlBreaksL rest) : List Char)
          = c :: rest
        rw [ih f hf2 hr2 hlt2]

/-- C4 counterexample: storing the two-line text `a\r\nb` through place
create and loading it back through the edit-form transform yields `a\nb`,
not the original text — the carriage return is lost. -/
theorem newline_roundtrip_crlf_cex :
    editLoadField (placeInsertRow
        { name := "x", specials := some "a\r\nb" } 1 0).specials = "a\nb" ∧
    ("a\nb" : String) ≠ "a\r\nb" := by
  constructor
  · rfl
  · decide

/-- C4 amended: for a non-empty text whose line breaks are all bare newlines
(no carriage returns) and which contains no opening angle bracket (so no
literal text can be mistaken for a stored break marker), storing the text in
`specials` via place create and applying the edit-form-load transform
reproduces the text exactly.  Texts using carriage-return-prefixed newlines
are instead normalized to bare newlines by the round trip. -/
theorem newline_roundtrip_amended (d : PlaceInput) (nid now : Nat) (s : String)
    (hsp : d.specials = some s) (h0 : s ≠ "")
    (hr : '\r' ∉ s.data) (hlt : '<' ∉ s.data) :
    editLoadField (placeInsertRow d nid now).specials = s := by
  have hrow : (placeInsertRow d nid now).specials = toHtmlBreaks d.specials := rfl
  rw [hrow, hsp]
  unfold toHtmlBreaks editLoadField
  simp only [h0, if_false]
  unfold fromHtmlBreaksL
  have := fromFuel_toHtml_roundtrip s.data (toHtmlBreaksL s.data).length le_rfl hr hlt
  simp [this]

/-- Witness for the amended round trip at the concrete text `a\nb\nc`. -/
theorem newline_roundtrip_amended_witness :
    (some "a\nb\nc" : Option String) = some "a\nb\nc" ∧
    ("a\nb\nc" : String) ≠ "" ∧
    '\r' ∉ ("a\nb\nc" : String).data ∧ '<' ∉ ("a\nb\nc" : String).data ∧
    editLoadField (placeInsertRow
        { name := "x", specials := some "a\nb\nc" } 1 0).specials = "a\nb\nc" :=
  ⟨rfl, by decide, by decide, by decide,
    newline_roundtrip_amended { name := "x", specials := some "a\nb\nc" } 1 0
      "a\nb\nc" rfl (by decide) (by decide) (by decide)⟩

/-! ### Transaction wrapping (claim C2) -/

/-- Running the tag-delete statement sequence to completion agrees with the
monolithic `tagDelete` state function. -/
theorem tagDeleteProg_runAll (id : Nat) (s0 : DbState) :
    runAll (tagDeleteProg id s0) s0 = (tagDelete id s0).1 := by
  cases h : tagFindById s0 id with
  | none => simp [tagDelete, tagDeleteProg, runAll, h]
  | some tag =>
    cases hp : tag.parent_tag_id <;>
      simp [tagDelete, tagDeleteProg, runAll, h, hp, tagDeleteApply]

/-- Running the place-create statement sequence to completion agrees with the
monolithic `placeCreate` state function. -/
theorem placeCreateProg_runAll (d : PlaceInput) (nid now : Nat) (s : DbState) :
    runAll (placeCreateProg d nid now) s = (placeCreate d nid now s).1 := by
  cases ht : d.tags with
  | none => simp [placeCreate, placeCreateProg, runAll, ht]
  | some ts =>
    by_cases hl : 0 < ts.length <;>
      simp [placeCreate, placeCreateProg, runAll, ht, hl, setTags]

/-- The upsert statements of `bulkSave`, folded in sequence, agree with the
upsert loop. -/
theorem bulkUpsertStmts_foldl (snapshot : List Tag) (now : Nat) :
    ∀ (input : List TagInput) (st : DbState) (ctr : Nat),
      (bulkUpsertStmts snapshot now input ctr).foldl (fun s f => f s) st
        = (input.foldl (bulkUpsertStep snapshot now) (st, ctr)).1 := by
  intro input
  induction input with
  | nil => intro st ctr; rfl
  | cons d rest ih =>
    intro st ctr
    cases hx : tagSnapshotGet snapshot d.value with
    | none =>
      simp only [bulkUpsertStmts, hx, List.foldl_cons]
      rw [ih]
      simp [bulkUpsertStep, hx]
    | some ex =>
      simp only [bulkUpsertStmts, hx, List.foldl_cons]
      rw [ih]
      simp [bulkUpsertStep, hx]

/-- Running the bulk-save statement sequence to completion agrees with the
monolithic `bulkSave` state function. -/
theorem bulkSaveProg_runAll (input : List TagInput) (now nid : Nat) (s0 : DbState) :
    runAll (bulkSaveProg input now nid s0) s0 = (bulkSave input now nid s0).1 := by
  simp only [bulkSaveProg, runAll, bulkSave, List.foldl_cons, List.foldl_append,
    List.foldl_nil]
  rw [bulkUpsertStmts_foldl]

/-- Running the place-update statement sequence to completion agrees with the
monolithic `placeUpdate` state function whenever the place exists (the
sequence models the success path). -/
theorem placeUpdateProg_runAll (id : Nat) (d : PlacePatch) (now : Nat)
    (s : DbState) (h : s.places.any (fun p => p.id = id) = true) :
    runAll (placeUpdateProg id d now) s = (placeUpdate id d now s).1 := by
  by_cases hf : patchHasRealField d = true
  · cases ht : d.tags with
    | none => simp [placeUpdate, placeUpdateProg, runAll, hf, ht, h, setTags]
    | some ts => simp [placeUpdate, placeUpdateProg, runAll, hf, ht, h, setTags]
  · cases ht : d.tags with
    | none => simp [placeUpdate, placeUpdateProg, runAll, hf, ht, setTags]
    | some ts => simp [placeUpdate, placeUpdateProg, runAll, hf, ht, setTags]

/-- Running the tag-update statement sequence to completion agrees with the
monolithic `tagUpdate` state function. -/
theorem tagUpdateProg_runAll (id : Nat) (d : TagPatch) (now : Nat) (s0 : DbState) :
    runAll (tagUpdateProg id d now s0) s0 = (tagUpdate id d now s0).1 := by
  unfold runAll tagUpdateProg tagUpdate
  cases h : tagFindById s0 id with
  | none => rfl
  | some oldTag =>
    by_cases hc : (d.value.isSome || d.display.isSome || d.sort_order.isSome
        || d.parent_tag_id.isSome) = true
    · cases hp : d.parent_tag_id with
      | none =>
        rw [hp] at hc
        simp only [hc, if_true]
        rfl
      | some newP =>
        rw [hp] at hc
        simp only [hc, if_true]
        by_cases he : oldTag.parent_tag_id = newP
        · rw [if_pos he, if_pos he]
          rfl
        · rw [if_neg he, if_neg he]
          cases ho : oldTag.parent_tag_id <;> cases hn : newP <;> rfl
    · simp only [Bool.not_eq_true] at hc
      simp only [hc]
      rfl

/-- A concrete store with one place, one tag, and one association between
them. -/
def txCexState : DbState :=
  { tags := [{ id := 1, value := "food", display := "Food", sort_order := 0,
               parent_tag_id := none, has_children := false,
               created_at := 0, updated_at := 0 }],
    places := [{ id := 10, name := "joes", address := none, phone := none,
                 url := none, specials := none, categories := none,
                 notes := none, created_at := 0, updated_at := 0 }],
    placeTags := [(10, 1)] }

/-- C2 counterexample: `TagModel.delete` runs its statements outside any
transaction, and a failure striking after its junction delete leaves an
observable state — associations removed but the tag row still present — that
is neither the initial nor the final state, so the delete sequence is not
atomic. -/
theorem tag_delete_not_transactional_cex :
    (tagDeleteProg 1 txCexState).txWrapped = false ∧
    runFailAt (tagDeleteProg 1 txCexState) txCexState 2 ≠ txCexState ∧
    runFailAt (tagDeleteProg 1 txCexState) txCexState 2
      ≠ runAll (tagDeleteProg 1 txCexState) txCexState := by
  refine ⟨rfl, by decide, by decide⟩

/-- A concrete store with a parent tag and one child, on which an unwrapped
tag update changing the parent can be interrupted mid-sequence. -/
def txUpdCexState : DbState :=
  { tags := [{ id := 1, value := "food", display := "Food", sort_order := 0,
               parent_tag_id := none, has_children := true,
               created_at := 0, updated_at := 0 },
             { id := 2, value := "pizza", display := "Pizza", sort_order := 0,
               parent_tag_id := some 1, has_children := false,
               created_at := 0, updated_at := 0 }],
    places := [], placeTags := [] }

/-- C2 amended: place create, place update with tag replacement, and tag
bulk-save run inside `withTransaction`, so a failure anywhere in those
sequences rolls the state back to the initial one; but tag delete with
`has_children` recomputation and tag update with parent change issue their
statements with no transaction wrapper, and a failure striking mid-sequence
leaves a partial state observable: in tag delete the tag's associations are
removed while the tag row remains, and in tag update the tag is reparented
while the former parent's `has_children` flag is still stale — in both
cases a state that is neither the initial nor the final one. -/
theorem transaction_wrapping_amended :
    (∀ d nid now, (placeCreateProg d nid now).txWrapped = true) ∧
    (∀ id d now, (placeUpdateProg id d now).txWrapped = true) ∧
    (∀ input now nid s0, (bulkSaveProg input now nid s0).txWrapped = true) ∧
    (∀ d nid now s k, runFailAt (placeCreateProg d nid now) s k = s) ∧
    (∀ id d now s k, runFailAt (placeUpdateProg id d now) s k = s) ∧
    (∀ input now nid s0 s k, runFailAt (bulkSaveProg input now nid s0) s k = s) ∧
    (∀ id s0, (tagDeleteProg id s0).txWrapped = false) ∧
    (∀ id d now s0, (tagUpdateProg id d now s0).txWrapped = false) ∧
    runFailAt (tagDeleteProg 1 txCexState) txCexState 2
      = { txCexState with placeTags := [] } ∧
    (runFailAt (tagUpdateProg 2 { parent_tag_id := some none } 7 txUpdCexState)
        txUpdCexState 2 ≠ txUpdCexState ∧
      runFailAt (tagUpdateProg 2 { parent_tag_id := some none } 7 txUpdCexState)
          txUpdCexState 2
        ≠ runAll (tagUpdateProg 2 { parent_tag_id := some none } 7 txUpdCexState)
            txUpdCexState) := by
  refine ⟨fun d nid now => rfl, fun id d now => rfl, fun input now nid s0 => rfl,
    ?_, ?_, ?_, fun id s0 => rfl, fun id d now s0 => rfl, by decide,
    by decide, by decide⟩
  · intro d nid now s k; simp [runFailAt, placeCreateProg]
  · intro id d now s k; simp [runFailAt, placeUpdateProg]
  · intro input now nid s0 s k; simp [runFailAt, bulkSaveProg]

/-! ### Structured tag view (claim C9) -/

/-- The parent-to-children map, applied at a key, is the filter of the child
list by that parent id (generalized over the fold's accumulator). -/
theorem childrenByParent_apply (l : List Tag) (k : Nat) :
    childrenByParent l k = l.filter (fun t => t.parent_tag_id = some k) := by
  suffices h : ∀ (l : List Tag) (m : Nat → List Tag),
      (l.foldl
        (fun m c =>
          match c.parent_tag_id with
          | some pid => fun k2 => if k2 = pid then m k2 ++ [c] else m k2
          | none => m) m) k
        = m k ++ l.filter (fun t => t.parent_tag_id = some k) by
    simpa [childrenByParent] using h l (fun _ => [])
  intro l
  induction l with
  | nil => intro m; simp
  | cons c rest ih =>
    intro m
    cases hc : c.parent_tag_id with
    | none => simp [List.foldl_cons, hc, ih, List.filter_cons]
    | some pid =>
      by_cases hk : k = pid
      · subst hk
        simp [List.foldl_cons, hc, ih, List.filter_cons]
      · have hne : ¬ (some pid = some k) := by
          intro h2; exact hk (Option.some.inj h2).symm
        simp [List.foldl_cons, hc, ih, List.filter_cons, hk, hne]

/-- C9: `listStructured` partitions the ordered flat tag list into parents
(the tags whose `has_children` flag is set, each carrying as children exactly
the tags whose `parent_tag_id` equals its id, one level deep) and standalone
tags (no parent and no children). -/
theorem findAllStructured_spec (s : DbState) :
    findAllStructured s =
      { parents := ((tagFindAll s).filter (fun t => t.has_children)).map
          (fun p => { tag := p, children :=
            (tagFindAll s).filter (fun t => t.parent_tag_id = some p.id) }),
        standalone := (tagFindAll s).filter
          (fun t => !t.has_children && t.parent_tag_id = none) } := by
  unfold findAllStructured
  refine congrArg₂ StructuredTags.mk ?_ rfl
  apply List.map_congr_left
  intro p _
  refine congrArg (TagWithChildren.mk p) ?_
  rw [childrenByParent_apply, List.filter_filter]
  apply List.filter_congr
  intro t _
  cases ht : t.parent_tag_id with
  | none => simp
  | some q => simp

/-! ### The `has_children` invariant (claim C1) -/

/-- The primary-key column of the tag table. -/
def tagIds (tags : List Tag) : List Nat := tags.map (fun t => t.id)

/-- The ids of the children of a tag, in table order. -/
def childIds (tags : List Tag) (pid : Nat) : List Nat :=
  (tags.filter (fun t => t.parent_tag_id = some pid)).map (fun t => t.id)

/-- A row in an id-nodup table is determined by its id. -/
theorem mem_id_unique {l : List Tag} (h : (tagIds l).Nodup) :
    ∀ t1 ∈ l, ∀ t2 ∈ l, t1.id = t2.id → t1 = t2 :=
  List.inj_on_of_nodup_map h

/-- Mapping a function that preserves ids and parent references leaves every
child-id list unchanged. -/
theorem childIds_map_preserve (l : List Tag) (f : Tag → Tag)
    (hid : ∀ t ∈ l, (f t).id = t.id)
    (hpar : ∀ t ∈ l, (f t).parent_tag_id = t.parent_tag_id) (k : Nat) :
    childIds (l.map f) k = childIds l k := by
  induction l with
  | nil => rfl
  | cons c rest ih =>
    have hidc := hid c (List.mem_cons_self c rest)
    have hparc := hpar c (List.mem_cons_self c rest)
    have ih2 := ih (fun t ht => hid t (List.mem_cons_of_mem c ht))
      (fun t ht => hpar t (List.mem_cons_of_mem c ht))
    unfold childIds at ih2 ⊢
    simp only [List.map_cons, List.filter_cons, hparc]
    by_cases hp : c.parent_tag_id = some k
    · simp [hp, List.map_cons, hidc, ih2]
    · simp [hp, ih2]

/-- Mapping a function that preserves parent references leaves the existence
check unchanged. -/
theorem hasChildrenOf_map_preserve (l : List Tag) (f : Tag → Tag)
    (hpar : ∀ t ∈ l, (f t).parent_tag_id = t.parent_tag_id) (k : Nat) :
    hasChildrenOf (l.map f) k = hasChildrenOf l k := by
  induction l with
  | nil => rfl
  | cons c rest ih =>
    have hparc := hpar c (List.mem_cons_self c rest)
    have ih2 := ih (fun t ht => hpar t (List.mem_cons_of_mem c ht))
    unfold hasChildrenOf at ih2 ⊢
    simp only [List.map_cons, List.any_cons, hparc, ih2]

/-- Appending a single row extends exactly the child-id list of that row's
parent. -/
theorem childIds_append_single (l : List Tag) (r : Tag) (k : Nat) :
    childIds (l ++ [r]) k =
      if r.parent_tag_id = some k then childIds l k ++ [r.id]
      else childIds l k := by
  unfold childIds
  rw [List.filter_append, List.map_append]
  by_cases hp : r.parent_tag_id = some k
  · simp [List.filter_cons, hp]
  · simp [List.filter_cons, hp]

/-- `updateHasChildren` writes the existence check into the flag of the
addressed tag. -/
theorem updateHasChildren_flag (pid : Nat) (s : DbState) :
    ∀ t ∈ (updateHasChildren pid s).tags, t.id = pid →
      t.has_children = hasChildrenOf s.tags pid := by
  intro t ht hid
  unfold updateHasChildren at ht
  simp only [List.mem_map] at ht
  obtain ⟨t0, _, heq⟩ := ht
  by_cases h0 : t0.id = pid
  · rw [← heq]
    simp [h0]
  · rw [← heq] at hid
    simp only [h0, if_false] at hid

/-- `updateHasChildren` changes no ids and no parent references, hence no
child-id list. -/
theorem updateHasChildren_childIds (pid : Nat) (s : DbState) (k : Nat) :
    childIds (updateHasChildren pid s).tags k = childIds s.tags k := by
  unfold updateHasChildren
  exact childIds_map_preserve _ _ (fun t _ => by split <;> rfl)
    (fun t _ => by split <;> rfl) k

/-- `updateHasChildren` changes no parent references, hence no existence
check. -/
theorem updateHasChildren_hasChildrenOf (pid : Nat) (s : DbState) (k : Nat) :
    hasChildrenOf (updateHasChildren pid s).tags k = hasChildrenOf s.tags k := by
  unfold updateHasChildren
  exact hasChildrenOf_map_preserve _ _ (fun t _ => by split <;> rfl) k

/-- Every row after `updateHasChildren` comes from a row of the original
table with the same id and parent reference. -/
theorem updateHasChildren_mem (pid : Nat) (s : DbState) :
    ∀ t ∈ (updateHasChildren pid s).tags,
      ∃ t0 ∈ s.tags, t.id = t0.id ∧ t.parent_tag_id = t0.parent_tag_id := by
  intro t ht
  unfold updateHasChildren at ht
  simp only [List.mem_map] at ht
  obtain ⟨t0, ht0, heq⟩ := ht
  refine ⟨t0, ht0, ?_, ?_⟩ <;> rw [← heq] <;> split <;> rfl

/-- The cascade iteration only ever grows the dead set. -/
theorem cascadeAux_subset (tags : List Tag) :
    ∀ (n : Nat) (acc : List Nat), acc ⊆ cascadeAux n tags acc := by
  intro n
  induction n with
  | zero => intro acc; exact fun x hx => hx
  | succ m ih =>
    intro acc
    rw [cascadeAux]
    by_cases h : cascadeStep tags acc = []
    · simp only [h, if_true]
      exact fun x hx => hx
    · simp only [h, if_false]
      exact fun x hx => ih (acc ++ cascadeStep tags acc)
        (List.mem_append_left _ hx)

/-- Soundness of the cascade: every dead id is either the seed id or the id
of a row whose parent is dead. -/
theorem cascadeAux_sound (tags : List Tag) (id : Nat) :
    ∀ (n : Nat) (acc : List Nat),
      (∀ c ∈ acc, c = id ∨
        ∃ t ∈ tags, t.id = c ∧ ∃ p, t.parent_tag_id = some p ∧ p ∈ acc) →
      ∀ c ∈ cascadeAux n tags acc, c = id ∨
        ∃ t ∈ tags, t.id = c ∧ ∃ p, t.parent_tag_id = some p ∧
          p ∈ cascadeAux n tags acc := by
  intro n
  induction n with
  | zero => intro acc h; exact h
  | succ m ih =>
    intro acc h
    rw [cascadeAux]
    by_cases hnext : cascadeStep tags acc = []
    · simp only [hnext, if_true]
      exact h
    · simp only [hnext, if_false]
      apply ih
      intro c hc
      rcases List.mem_append.1 hc with hc | hc
      · rcases h c hc with h1 | ⟨t, ht, htid, p, hp, hpin⟩
        · exact Or.inl h1
        · exact Or.inr ⟨t, ht, htid, p, hp, List.mem_append_left _ hpin⟩
      · unfold cascadeStep at hc
        simp only [List.mem_map, List.mem_filter] at hc
        obtain ⟨t, ⟨ht, hcond⟩, rfl⟩ := hc
        refine Or.inr ⟨t, ht, rfl, ?_⟩
        cases hpar : t.parent_tag_id with
        | none => rw [hpar] at hcond; simp at hcond
        | some p =>
          rw [hpar] at hcond
          simp only [Bool.and_eq_true, Bool.not_eq_true'] at hcond
          refine ⟨p, rfl, List.mem_append_left _ ?_⟩
          have := hcond.2
          simpa using this

/-- Soundness of `cascadeDead` for a single-id seed. -/
theorem cascadeDead_sound (tags : List Tag) (id : Nat) :
    ∀ c ∈ cascadeDead tags [id], c = id ∨
      ∃ t ∈ tags, t.id = c ∧ ∃ p, t.parent_tag_id = some p ∧
        p ∈ cascadeDead tags [id] := by
  apply cascadeAux_sound
  intro c hc
  rw [List.mem_singleton] at hc
  exact Or.inl hc

/-- Each direct child of the seed tag is caught by the cascade. -/
theorem children_mem_cascadeDead (tags : List Tag) (id : Nat) :
    ∀ t ∈ tags, t.parent_tag_id = some id → t.id ∈ cascadeDead tags [id] := by
  intro t ht hpar
  unfold cascadeDead
  cases hlen : tags.length with
  | zero =>
    rw [List.length_eq_zero] at hlen
    subst hlen
    cases ht
  | succ m =>
    rw [cascadeAux]
    by_cases hid : t.id = id
    · by_cases hnext : cascadeStep tags [id] = []
      · simp only [hnext, if_true]
        exact hid ▸ List.mem_singleton_self id
      · simp only [hnext, if_false]
        apply cascadeAux_subset
        exact List.mem_append_left _ (hid ▸ List.mem_singleton_self id)
    · have hmem : t.id ∈ cascadeStep tags [id] := by
        unfold cascadeStep
        simp only [List.mem_map, List.mem_filter]
        refine ⟨t, ⟨ht, ?_⟩, rfl⟩
        rw [hpar]
        simp [hid]
      have hnext : cascadeStep tags [id] ≠ [] := List.ne_nil_of_mem hmem
      simp only [hnext, if_false]
      apply cascadeAux_subset
      exact List.mem_append_right _ hmem

/-- The cascade of an empty seed is empty: with no dead parents, the step
finds nothing. -/
theorem cascadeStep_nil (tags : List Tag) : cascadeStep tags [] = [] := by
  unfold cascadeStep
  induction tags with
  | nil => rfl
  | cons c rest ih =>
    rw [List.filter_cons]
    cases hpar : c.parent_tag_id <;> simpa [hpar] using ih

/-- The cascade closure of an empty seed is empty. -/
theorem cascadeDead_nil (tags : List Tag) : cascadeDead tags [] = [] := by
  unfold cascadeDead
  cases tags.length with
  | zero => rfl
  | succ m => rw [cascadeAux]; simp [cascadeStep_nil]

/-- Mapping a function that preserves ids and, pointwise, the test against a
fixed parent id, leaves that parent's child-id list unchanged. -/
theorem childIds_map_congr (l : List Tag) (f : Tag → Tag)
    (hid : ∀ t ∈ l, (f t).id = t.id) (k : Nat)
    (hiff : ∀ t ∈ l, ((f t).parent_tag_id = some k) ↔ (t.parent_tag_id = some k)) :
    childIds (l.map f) k = childIds l k := by
  induction l with
  | nil => rfl
  | cons c rest ih =>
    have hidc := hid c (List.mem_cons_self c rest)
    have hiffc := hiff c (List.mem_cons_self c rest)
    have ih2 := ih (fun t ht => hid t (List.mem_cons_of_mem c ht))
      (fun t ht => hiff t (List.mem_cons_of_mem c ht))
    unfold childIds at ih2 ⊢
    simp only [List.map_cons, List.filter_cons]
    by_cases hp : c.parent_tag_id = some k
    · have hfp : (f c).parent_tag_id = some k := hiffc.2 hp
      simp [hp, hfp, hidc, ih2]
    · have hfp : ¬ (f c).parent_tag_id = some k := fun h => hp (hiffc.1 h)
      simp [hp, hfp, ih2]

/-- A row whose id differs from the recomputed one is passed through
`updateHasChildren` untouched. -/
theorem updateHasChildren_mem_ne (pid : Nat) (s : DbState) (t : Tag)
    (ht : t ∈ (updateHasChildren pid s).tags) (hne : t.id ≠ pid) :
    t ∈ s.tags := by
  unfold updateHasChildren at ht
  simp only [List.mem_map] at ht
  obtain ⟨t0, ht0, heq⟩ := ht
  by_cases h0 : t0.id = pid
  · exfalso
    apply hne
    rw [← heq]
    simp [h0]
  · rw [← heq]
    simp only [h0, if_false]
    exact ht0

/-- Child-id lists of a filtered table: filter the rows of the original
child list. -/
theorem childIds_filter (l : List Tag) (q : Tag → Bool) (k : Nat) :
    childIds (l.filter q) k
      = ((l.filter (fun t => t.parent_tag_id = some k)).filter q).map
          (fun t => t.id) := by
  unfold childIds
  rw [List.filter_comm]

/-- A filter that loses something must reject a member. -/
theorem filter_ne_exists {α : Type} (l : List α) (q : α → Bool)
    (h : l.filter q ≠ l) : ∃ a ∈ l, q a = false := by
  induction l with
  | nil => simp at h
  | cons c rest ih =>
    by_cases hc : q c
    · rw [List.filter_cons_of_pos hc] at h
      have h2 : rest.filter q ≠ rest := by
        intro he; exact h (by rw [he])
      obtain ⟨a, ha, hqa⟩ := ih h2
      exact ⟨a, List.mem_cons_of_mem _ ha, hqa⟩
    · exact ⟨c, List.mem_cons_self c rest, by simpa using hc⟩

/-- The state of `tagCreate` when no parent id was supplied. -/
theorem tagCreate_state_none (d : TagInput) (nid now : Nat) (s : DbState)
    (hpar : d.parent_tag_id = none) :
    (tagCreate d nid now s).1
      = { s with tags := s.tags ++ [tagCreateRow d nid now] } := by
  unfold tagCreate
  simp only [hpar]

/-- The state of `tagCreate` when a parent id was supplied. -/
theorem tagCreate_state_some (d : TagInput) (nid now : Nat) (s : DbState)
    (pid : Nat) (hpar : d.parent_tag_id = some pid) :
    (tagCreate d nid now s).1 =
      updateHasChildren pid
        { s with tags := s.tags ++ [tagCreateRow d nid now] } := by
  unfold tagCreate
  simp only [hpar]

/-- `tagUpdate` on a missing id changes nothing and reports not-found. -/
theorem tagUpdate_state_nofind (id : Nat) (d : TagPatch) (now : Nat)
    (s : DbState) (hfind : tagFindById s id = none) :
    tagUpdate id d now s = (s, none) := by
  unfold tagUpdate
  rw [hfind]

/-- `tagUpdate` with an empty patch returns the current row unchanged. -/
theorem tagUpdate_state_nopatch (id : Nat) (d : TagPatch) (now : Nat)
    (s : DbState) (oldTag : Tag) (hfind : tagFindById s id = some oldTag)
    (hcond : (d.value.isSome || d.display.isSome || d.sort_order.isSome
      || d.parent_tag_id.isSome) = false) :
    tagUpdate id d now s = (s, some oldTag) := by
  unfold tagUpdate
  rw [hfind]
  simp [hcond]

/-- `tagUpdate` without a parent field in the patch only applies the dynamic
update. -/
theorem tagUpdate_state_parent_none (id : Nat) (d : TagPatch) (now : Nat)
    (s : DbState) (oldTag : Tag) (hfind : tagFindById s id = some oldTag)
    (hcond : (d.value.isSome || d.display.isSome || d.sort_order.isSome
      || d.parent_tag_id.isSome) = true)
    (hdp : d.parent_tag_id = none) :
    (tagUpdate id d now s).1 = tagUpdateApply id d now s := by
  unfold tagUpdate
  rw [hfind]
  rw [hdp] at hcond
  simp only [hdp, hcond, if_true]

/-- `tagUpdate` with an unchanged parent reference skips the recomputation. -/
theorem tagUpdate_state_parent_same (id : Nat) (d : TagPatch) (now : Nat)
    (s : DbState) (oldTag : Tag) (newP : Option Nat)
    (hfind : tagFindById s id = some oldTag)
    (hcond : (d.value.isSome || d.display.isSome || d.sort_order.isSome
      || d.parent_tag_id.isSome) = true)
    (hdp : d.parent_tag_id = some newP)
    (hsame : oldTag.parent_tag_id = newP) :
    (tagUpdate id d now s).1 = tagUpdateApply id d now s := by
  unfold tagUpdate
  rw [hfind]
  rw [hdp] at hcond
  simp only [hdp, hcond, if_true, hsame]

/-- `tagUpdate` moving a tag from one parent to another recomputes both. -/
theorem tagUpdate_state_move_both (id : Nat) (d : TagPatch) (now : Nat)
    (s : DbState) (oldTag : Tag) (op np : Nat)
    (hfind : tagFindById s id = some oldTag)
    (hcond : (d.value.isSome || d.display.isSome || d.sort_order.isSome
      || d.parent_tag_id.isSome) = true)
    (hdp : d.parent_tag_id = some (some np))
    (hold : oldTag.parent_tag_id = some op)
    (hne : (some op : Option Nat) ≠ some np) :
    (tagUpdate id d now s).1 =
      updateHasChildren np (updateHasChildren op (tagUpdateApply id d now s)) := by
  unfold tagUpdate
  rw [hfind]
  rw [hdp] at hcond
  simp only [hdp, hcond, if_true, hold]
  rw [if_neg hne]

/-- `tagUpdate` detaching a tag from its parent recomputes the old parent. -/
theorem tagUpdate_state_move_tonone (id : Nat) (d : TagPatch) (now : Nat)
    (s : DbState) (oldTag : Tag) (op : Nat)
    (hfind : tagFindById s id = some oldTag)
    (hcond : (d.value.isSome || d.display.isSome || d.sort_order.isSome
      || d.parent_tag_id.isSome) = true)
    (hdp : d.parent_tag_id = some none)
    (hold : oldTag.parent_tag_id = some op) :
    (tagUpdate id d now s).1 = updateHasChildren op (tagUpdateApply id d now s) := by
  unfold tagUpdate
  rw [hfind]
  rw [hdp] at hcond
  simp only [hdp, hcond, if_true, hold]
  rw [if_neg (by simp : (some op : Option Nat) ≠ none)]

/-- `tagUpdate` attaching a previously top-level tag recomputes the new
parent. -/
theorem tagUpdate_state_move_fromnone (id : Nat) (d : TagPatch) (now : Nat)
    (s : DbState) (oldTag : Tag) (np : Nat)
    (hfind : tagFindById s id = some oldTag)
    (hcond : (d.value.isSome || d.display.isSome || d.sort_order.isSome
      || d.parent_tag_id.isSome) = true)
    (hdp : d.parent_tag_id = some (some np))
    (hold : oldTag.parent_tag_id = none) :
    (tagUpdate id d now s).1 = updateHasChildren np (tagUpdateApply id d now s) := by
  unfold tagUpdate
  rw [hfind]
  rw [hdp] at hcond
  simp only [hdp, hcond, if_true, hold]
  rw [if_neg (by simp : (none : Option Nat) ≠ some np)]

/-- `tagDelete` on a missing id changes nothing and reports false. -/
theorem tagDelete_state_nofind (id : Nat) (s : DbState)
    (hfind : tagFindById s id = none) : tagDelete id s = (s, false) := by
  unfold tagDelete
  rw [hfind]

/-- `tagDelete` of a top-level tag performs the deletes and no
recomputation. -/
theorem tagDelete_state_none (id : Nat) (s : DbState) (tag : Tag)
    (hfind : tagFindById s id = some tag) (hpar : tag.parent_tag_id = none) :
    tagDelete id s = (tagDeleteApply id s, true) := by
  unfold tagDelete
  rw [hfind]
  simp only [hpar]

/-- `tagDelete` of a child tag recomputes its former parent. -/
theorem tagDelete_state_some (id : Nat) (s : DbState) (tag : Tag) (pid : Nat)
    (hfind : tagFindById s id = some tag)
    (hpar : tag.parent_tag_id = some pid) :
    tagDelete id s = (updateHasChildren pid (tagDeleteApply id s), true) := by
  unfold tagDelete
  rw [hfind]
  simp only [hpar]

/-- The tag table after the cascading delete. -/
theorem tagDeleteApply_tags (id : Nat) (s : DbState) :
    (tagDeleteApply id s).tags
      = s.tags.filter (fun t => !((cascadeDead s.tags [id]).contains t.id)) := rfl

/-- The dynamic update of `tagUpdate` leaves alone every child-id list whose
parent id is neither the old nor the new parent reference of the patched
row. -/
theorem tagUpdateApply_childIds_ne (id : Nat) (d : TagPatch) (now : Nat)
    (s : DbState) (oldTag : Tag) (hnd : (tagIds s.tags).Nodup)
    (hfind : tagFindById s id = some oldTag) (newP : Option Nat)
    (hdp : d.parent_tag_id = some newP) (k : Nat)
    (hko : oldTag.parent_tag_id ≠ some k) (hkn : newP ≠ some k) :
    childIds (tagUpdateApply id d now s).tags k = childIds s.tags k := by
  have holdmem : oldTag ∈ s.tags := List.mem_of_find?_eq_some hfind
  have holdid : oldTag.id = id := by
    have := List.find?_some hfind
    simpa using this
  apply childIds_map_congr
  · intro t2 _
    by_cases h2 : t2.id = id <;> simp [h2, applyTagPatch]
  · intro t2 ht2
    by_cases h2 : t2.id = id
    · rw [mem_id_unique hnd t2 ht2 oldTag holdmem (h2.trans holdid.symm)]
      simp only [holdid, if_true, applyTagPatch, hdp]
      constructor
      · intro h; exact absurd h hkn
      · intro h; exact absurd h hko
    · simp [h2]

/-- If the cascading delete changes a surviving tag's child set, the deleted
tag was a child of that tag. -/
theorem tagDelete_changed_parent (id : Nat) (s : DbState) (tag : Tag)
    (hnd : (tagIds s.tags).Nodup)
    (hfind : tagFindById s id = some tag) (k : Nat)
    (hsurv : k ∉ cascadeDead s.tags [id])
    (hne : childIds (tagDeleteApply id s).tags k ≠ childIds s.tags k) :
    tag.parent_tag_id = some k := by
  rw [tagDeleteApply_tags, childIds_filter] at hne
  unfold childIds at hne
  have hneq : (s.tags.filter (fun t => t.parent_tag_id = some k)).filter
      (fun t => !((cascadeDead s.tags [id]).contains t.id))
      ≠ s.tags.filter (fun t => t.parent_tag_id = some k) := by
    intro he
    apply hne
    rw [he]
  obtain ⟨r, hrm, hq⟩ := filter_ne_exists _ _ hneq
  have hrmem : r ∈ s.tags := List.mem_of_mem_filter hrm
  have hrpar : r.parent_tag_id = some k := by
    have := List.of_mem_filter hrm
    simpa using this
  have hrdead : r.id ∈ cascadeDead s.tags [id] := by
    simpa using hq
  rcases cascadeDead_sound s.tags id r.id hrdead with h1 | ⟨t2, ht2, ht2id, p, hp, hpdead⟩
  · have htagmem : tag ∈ s.tags := List.mem_of_find?_eq_some hfind
    have htagid : tag.id = id := by
      have := List.find?_some hfind
      simpa using this
    have hrt : r = tag := mem_id_unique hnd r hrmem tag htagmem (by rw [h1, htagid])
    rw [← hrt]
    exact hrpar
  · have ht2r : t2 = r := mem_id_unique hnd t2 ht2 r hrmem ht2id
    rw [ht2r, hrpar] at hp
    have hpk : k = p := Option.some.inj hp
    rw [← hpk] at hpdead
    exact absurd hpdead hsurv

/-- The three single-tag write operations of the tag store. -/
inductive TagOp where
  | createOp (d : TagInput) (nid now : Nat)
  | updateOp (id : Nat) (d : TagPatch) (now : Nat)
  | deleteOp (id : Nat)

/-- The state reached by a completed tag write. -/
def applyTagOp : TagOp → DbState → DbState
  | TagOp.createOp d nid now, s => (tagCreate d nid now s).1
  | TagOp.updateOp id d now, s => (tagUpdate id d now s).1
  | TagOp.deleteOp id, s => (tagDelete id s).1

/-- C1: after any completed tag create, update, or delete, every surviving
tag whose child set was affected by the operation carries a `has_children`
flag equal to the existence check over the new table — the flag is
recomputed by an existence check, never incremented. -/
theorem has_children_recomputed (op : TagOp) (s : DbState)
    (hnd : (tagIds s.tags).Nodup) :
    ∀ t ∈ (applyTagOp op s).tags,
      childIds (applyTagOp op s).tags t.id ≠ childIds s.tags t.id →
      t.has_children = hasChildrenOf (applyTagOp op s).tags t.id := by
  cases op with
  | createOp d nid now =>
    simp only [applyTagOp]
    cases hpar : d.parent_tag_id with
    | none =>
      rw [tagCreate_state_none d nid now s hpar]
      intro t ht hne
      exfalso
      apply hne
      show childIds (s.tags ++ [tagCreateRow d nid now]) t.id = childIds s.tags t.id
      rw [childIds_append_single]
      have hrow : (tagCreateRow d nid now).parent_tag_id = none := hpar
      simp [hrow]
    | some pid =>
      rw [tagCreate_state_some d nid now s pid hpar]
      intro t ht hne
      by_cases hk : t.id = pid
      · rw [hk, updateHasChildren_flag pid _ t ht hk,
          updateHasChildren_hasChildrenOf]
      · exfalso
        apply hne
        rw [updateHasChildren_childIds]
        show childIds (s.tags ++ [tagCreateRow d nid now]) t.id = childIds s.tags t.id
        rw [childIds_append_single]
        have hrow : ¬ ((tagCreateRow d nid now).parent_tag_id = some t.id) := by
          show ¬ (d.parent_tag_id = some t.id)
          rw [hpar]
          intro h
          exact hk (Option.some.inj h).symm
        simp [hrow]
  | updateOp id d now =>
    simp only [applyTagOp]
    cases hfind : tagFindById s id with
    | none =>
      have hstate : (tagUpdate id d now s).1 = s := by
        rw [tagUpdate_state_nofind id d now s hfind]
      rw [hstate]
      intro t ht hne
      exact absurd rfl hne
    | some oldTag =>
      have holdmem : oldTag ∈ s.tags := List.mem_of_find?_eq_some hfind
      have holdid : oldTag.id = id := by
        have := List.find?_some hfind
        simpa using this
      by_cases hcond : (d.value.isSome || d.display.isSome || d.sort_order.isSome
          || d.parent_tag_id.isSome) = true
      · cases hdp : d.parent_tag_id with
        | none =>
          rw [tagUpdate_state_parent_none id d now s oldTag hfind hcond hdp]
          intro t ht hne
          exfalso
          apply hne
          apply childIds_map_preserve
          · intro t2 _
            by_cases h2 : t2.id = id <;> simp [h2, applyTagPatch]
          · intro t2 _
            by_cases h2 : t2.id = id <;> simp [h2, applyTagPatch, hdp]
        | some newP =>
          by_cases hsame : oldTag.parent_tag_id = newP
          · rw [tagUpdate_state_parent_same id d now s oldTag newP hfind hcond
              hdp hsame]
            intro t ht hne
            exfalso
            apply hne
            show childIds (s.tags.map (fun t2 =>
              if t2.id = id then applyTagPatch d now t2 else t2)) t.id
              = childIds s.tags t.id
            apply childIds_map_congr
            · intro t2 _
              by_cases h2 : t2.id = id <;> simp [h2, applyTagPatch]
            · intro t2 ht2
              by_cases h2 : t2.id = id
              · rw [mem_id_unique hnd t2 ht2 oldTag holdmem (h2.trans holdid.symm)]
                simp only [holdid, if_true, applyTagPatch, hdp]
                rw [hsame]
              · simp [h2]
          · cases hold : oldTag.parent_tag_id with
            | some op =>
              cases hnp : newP with
              | some np =>
                have hopnp : (some op : Option Nat) ≠ some np := by
                  rw [← hold, ← hnp]
                  exact hsame
                rw [hnp] at hdp
                rw [tagUpdate_state_move_both id d now s oldTag op np hfind hcond
                  hdp hold hopnp]
                intro t ht hne
                by_cases hknp : t.id = np
                · rw [hknp, updateHasChildren_flag np _ t ht hknp]
                  simp only [updateHasChildren_hasChildrenOf]
                · by_cases hkop : t.id = op
                  · have ht2 : t ∈ (updateHasChildren op
                        (tagUpdateApply id d now s)).tags :=
                      updateHasChildren_mem_ne np _ t ht hknp
                    rw [hkop, updateHasChildren_flag op _ t ht2 hkop]
                    simp only [updateHasChildren_hasChildrenOf]
                  · exfalso
                    apply hne
                    rw [updateHasChildren_childIds, updateHasChildren_childIds]
                    apply tagUpdateApply_childIds_ne id d now s oldTag hnd hfind
                      (some np) hdp
                    · rw [hold]
                      intro h
                      exact hkop (Option.some.inj h).symm
                    · intro h
                      exact hknp (Option.some.inj h).symm
              | none =>
                rw [hnp] at hdp
                rw [tagUpdate_state_move_tonone id d now s oldTag op hfind hcond
                  hdp hold]
                intro t ht hne
                by_cases hkop : t.id = op
                · rw [hkop, updateHasChildren_flag op _ t ht hkop,
                    updateHasChildren_hasChildrenOf]
                · exfalso
                  apply hne
                  rw [updateHasChildren_childIds]
                  apply tagUpdateApply_childIds_ne id d now s oldTag hnd hfind
                    none hdp
                  · rw [hold]
                    intro h
                    exact hkop (Option.some.inj h).symm
                  · intro h
                    cases h
            | none =>
              cases hnp : newP with
              | some np =>
                rw [hnp] at hdp
                rw [tagUpdate_state_move_fromnone id d now s oldTag np hfind hcond
                  hdp hold]
                intro t ht hne
                by_cases hknp : t.id = np
                · rw [hknp, updateHasChildren_flag np _ t ht hknp,
                    updateHasChildren_hasChildrenOf]
                · exfalso
                  apply hne
                  rw [updateHasChildren_childIds]
                  apply tagUpdateApply_childIds_ne id d now s oldTag hnd hfind
                    (some np) hdp
                  · rw [hold]
                    intro h
                    cases h
                  · intro h
                    exact hknp (Option.some.inj h).symm
              | none =>
                exfalso
                apply hsame
                rw [hold, hnp]
      · have hcond2 : (d.value.isSome || d.display.isSome || d.sort_order.isSome
            || d.parent_tag_id.isSome) = false := by
          revert hcond
          cases d.value.isSome || d.display.isSome || d.sort_order.isSome
            || d.parent_tag_id.isSome <;> simp
        have hstate : (tagUpdate id d now s).1 = s := by
          rw [tagUpdate_state_nopatch id d now s oldTag hfind hcond2]
        rw [hstate]
        intro t ht hne
        exact absurd rfl hne
  | deleteOp id =>
    simp only [applyTagOp]
    cases hfind : tagFindById s id with
    | none =>
      have hstate : (tagDelete id s).1 = s := by
        rw [tagDelete_state_nofind id s hfind]
      rw [hstate]
      intro t ht hne
      exact absurd rfl hne
    | some tag =>
      cases hpar : tag.parent_tag_id with
      | none =>
        have hstate : (tagDelete id s).1 = tagDeleteApply id s := by
          rw [tagDelete_state_none id s tag hfind hpar]
        rw [hstate]
        intro t ht hne
        exfalso
        have hq : t.id ∉ cascadeDead s.tags [id] := by
          rw [tagDeleteApply_tags] at ht
          have := List.of_mem_filter ht
          simpa using this
        have hpk := tagDelete_changed_parent id s tag hnd hfind t.id hq hne
        rw [hpar] at hpk
        cases hpk
      | some pid =>
        have hstate : (tagDelete id s).1 =
            updateHasChildren pid (tagDeleteApply id s) := by
          rw [tagDelete_state_some id s tag pid hfind hpar]
        rw [hstate]
        intro t ht hne
        rw [updateHasChildren_childIds] at hne
        obtain ⟨t0, ht0, hid0, _⟩ := updateHasChildren_mem pid _ t ht
        have hq : t.id ∉ cascadeDead s.tags [id] := by
          rw [tagDeleteApply_tags] at ht0
          have := List.of_mem_filter ht0
          rw [← hid0] at this
          simpa using this
        have hpk := tagDelete_changed_parent id s tag hnd hfind t.id hq hne
        rw [hpar] at hpk
        have hpid : pid = t.id := Option.some.inj hpk
        rw [updateHasChildren_flag pid _ t ht hpid.symm,
          updateHasChildren_hasChildrenOf, hpid]

/-- A one-tag store used to witness the invariant theorem. -/
def wTagState : DbState :=
  { tags := [{ id := 1, value := "food", display := "Food", sort_order := 0,
               parent_tag_id := none, has_children := false,
               created_at := 0, updated_at := 0 }],
    places := [], placeTags := [] }

/-- Creating a child tag under the stored tag. -/
def wTagOp : TagOp :=
  TagOp.createOp
    { value := "pizza", display := "Pizza", sort_order := 1,
      parent_tag_id := some 1 } 2 5

/-- The parent row as it stands after the create. -/
def wFood : Tag :=
  { id := 1, value := "food", display := "Food", sort_order := 0,
    parent_tag_id := none, has_children := true, created_at := 0,
    updated_at := 0 }

/-- Witness: creating `pizza` under `food` changes `food`'s child set and
leaves its `has_children` flag equal to the existence check. -/
theorem has_children_recomputed_witness :
    (tagIds wTagState.tags).Nodup ∧
    wFood ∈ (applyTagOp wTagOp wTagState).tags ∧
    childIds (applyTagOp wTagOp wTagState).tags wFood.id
      ≠ childIds wTagState.tags wFood.id ∧
    wFood.has_children = hasChildrenOf (applyTagOp wTagOp wTagState).tags wFood.id :=
  ⟨by decide, by decide, by decide,
    has_children_recomputed wTagOp wTagState (by decide) wFood (by decide)
      (by decide)⟩

/-! ### Tag update applies only supplied fields (claim C6) -/

/-- Equality of two tag rows on every column except the derived
`has_children` flag. -/
def sameCore (t t0 : Tag) : Prop :=
  t.id = t0.id ∧ t.value = t0.value ∧ t.display = t0.display ∧
  t.sort_order = t0.sort_order ∧ t.parent_tag_id = t0.parent_tag_id ∧
  t.created_at = t0.created_at ∧ t.updated_at = t0.updated_at

theorem sameCore_refl (t : Tag) : sameCore t t :=
  ⟨rfl, rfl, rfl, rfl, rfl, rfl, rfl⟩

theorem sameCore_trans {a b c : Tag} (h1 : sameCore a b) (h2 : sameCore b c) :
    sameCore a c :=
  ⟨h1.1.trans h2.1, h1.2.1.trans h2.2.1, h1.2.2.1.trans h2.2.2.1,
   h1.2.2.2.1.trans h2.2.2.2.1, h1.2.2.2.2.1.trans h2.2.2.2.2.1,
   h1.2.2.2.2.2.1.trans h2.2.2.2.2.2.1, h1.2.2.2.2.2.2.trans h2.2.2.2.2.2.2⟩

/-- Every row after `updateHasChildren` matches a row of the original table
on all non-derived columns, and its flag can only have changed when it is
the recomputed tag. -/
theorem updateHasChildren_mem_fields (pid : Nat) (s : DbState) :
    ∀ t ∈ (updateHasChildren pid s).tags, ∃ t0 ∈ s.tags,
      sameCore t t0 ∧ (t.has_children ≠ t0.has_children → t.id = pid) := by
  intro t ht
  unfold updateHasChildren at ht
  simp only [List.mem_map] at ht
  obtain ⟨t0, ht0, heq⟩ := ht
  refine ⟨t0, ht0, ?_, ?_⟩
  · rw [← heq]
    by_cases h0 : t0.id = pid <;> simp [h0, sameCore]
  · intro hflag
    rw [← heq] at hflag ⊢
    by_cases h0 : t0.id = pid
    · simp [h0]
    · simp [h0] at hflag

/-- Every row after the dynamic update statement is the patched original row
when the id matches, and the untouched original row otherwise. -/
theorem tagUpdateApply_mem (id : Nat) (d : TagPatch) (now : Nat) (s : DbState) :
    ∀ t ∈ (tagUpdateApply id d now s).tags, ∃ t0 ∈ s.tags,
      t = if t0.id = id then applyTagPatch d now t0 else t0 := by
  intro t ht
  unfold tagUpdateApply at ht
  simp only [List.mem_map] at ht
  obtain ⟨t0, ht0, heq⟩ := ht
  exact ⟨t0, ht0, heq.symm⟩

/-- Every row of the post-update table matches, on all non-derived columns,
the patched original row (for the target id) or an untouched original row. -/
theorem tagUpdate_mem_chain (id : Nat) (d : TagPatch) (now : Nat) (s : DbState)
    (oldTag : Tag) (hfind : tagFindById s id = some oldTag)
    (hcond : (d.value.isSome || d.display.isSome || d.sort_order.isSome
      || d.parent_tag_id.isSome) = true) :
    ∀ t ∈ (tagUpdate id d now s).1.tags, ∃ t0 ∈ s.tags,
      sameCore t (if t0.id = id then applyTagPatch d now t0 else t0) := by
  have hchain : ∀ (s2 : DbState), (∀ t ∈ s2.tags, ∃ t0 ∈ s.tags,
      sameCore t (if t0.id = id then applyTagPatch d now t0 else t0)) →
      ∀ (pid : Nat) (t : Tag), t ∈ (updateHasChildren pid s2).tags →
      ∃ t0 ∈ s.tags,
        sameCore t (if t0.id = id then applyTagPatch d now t0 else t0) := by
    intro s2 hs2 pid t ht
    obtain ⟨t1, ht1, hcore, _⟩ := updateHasChildren_mem_fields pid s2 t ht
    obtain ⟨t0, ht0, hcore2⟩ := hs2 t1 ht1
    exact ⟨t0, ht0, sameCore_trans hcore hcore2⟩
  have hbase : ∀ t ∈ (tagUpdateApply id d now s).tags, ∃ t0 ∈ s.tags,
      sameCore t (if t0.id = id then applyTagPatch d now t0 else t0) := by
    intro t ht
    obtain ⟨t0, ht0, heq⟩ := tagUpdateApply_mem id d now s t ht
    exact ⟨t0, ht0, heq ▸ sameCore_refl t⟩
  cases hdp : d.parent_tag_id with
  | none =>
    rw [tagUpdate_state_parent_none id d now s oldTag hfind hcond hdp]
    exact hbase
  | some newP =>
    by_cases hsame : oldTag.parent_tag_id = newP
    · rw [tagUpdate_state_parent_same id d now s oldTag newP hfind hcond hdp hsame]
      exact hbase
    · cases hold : oldTag.parent_tag_id with
      | some op =>
        cases hnp : newP with
        | some np =>
          have hopnp : (some op : Option Nat) ≠ some np := by
            rw [← hold, ← hnp]
            exact hsame
          rw [hnp] at hdp
          rw [tagUpdate_state_move_both id d now s oldTag op np hfind hcond
            hdp hold hopnp]
          exact fun t ht => hchain _ (hchain _ hbase op) np t ht
        | none =>
          rw [hnp] at hdp
          rw [tagUpdate_state_move_tonone id d now s oldTag op hfind hcond
            hdp hold]
          exact fun t ht => hchain _ hbase op t ht
      | none =>
        cases hnp : newP with
        | some np =>
          rw [hnp] at hdp
          rw [tagUpdate_state_move_fromnone id d now s oldTag np hfind hcond
            hdp hold]
          exact fun t ht => hchain _ hbase np t ht
        | none =>
          exfalso
          apply hsame
          rw [hold, hnp]

/-- C6: tag update applies only the supplied patch fields — every other row
keeps all its columns, the target row takes exactly the supplied values and
keeps the rest — and when the patch changes `parent_tag_id` it recomputes
`has_children` for both the old and the new parent (when present), while an
absent or unchanged parent field leaves every `has_children` flag alone. -/
theorem tagUpdate_applies_patch (id : Nat) (d : TagPatch) (now : Nat)
    (s : DbState) (oldTag : Tag) (hnd : (tagIds s.tags).Nodup)
    (hfind : tagFindById s id = some oldTag) :
    (∀ t ∈ (tagUpdate id d now s).1.tags, t.id ≠ id →
      ∃ t0 ∈ s.tags, sameCore t t0) ∧
    (∀ t ∈ (tagUpdate id d now s).1.tags, t.id = id →
      ((d.value.isSome || d.display.isSome || d.sort_order.isSome
          || d.parent_tag_id.isSome) = true →
        sameCore t (applyTagPatch d now oldTag)) ∧
      ((d.value.isSome || d.display.isSome || d.sort_order.isSome
          || d.parent_tag_id.isSome) = false → t = oldTag)) ∧
    ((d.parent_tag_id = none ∨ d.parent_tag_id = some oldTag.parent_tag_id) →
      (tagUpdate id d now s).1.tags.map (fun t => t.has_children)
        = s.tags.map (fun t => t.has_children)) ∧
    (∀ newP, d.parent_tag_id = some newP → oldTag.parent_tag_id ≠ newP →
      ∀ t ∈ (tagUpdate id d now s).1.tags,
        (some t.id = oldTag.parent_tag_id ∨ some t.id = newP) →
        t.has_children = hasChildrenOf (tagUpdate id d now s).1.tags t.id) := by
  have holdmem : oldTag ∈ s.tags := List.mem_of_find?_eq_some hfind
  have holdid : oldTag.id = id := by
    have := List.find?_some hfind
    simpa using this
  refine ⟨?_, ?_, ?_, ?_⟩
  · intro t ht hne
    by_cases hcond : (d.value.isSome || d.display.isSome || d.sort_order.isSome
        || d.parent_tag_id.isSome) = true
    · obtain ⟨t0, ht0, hcore⟩ := tagUpdate_mem_chain id d now s oldTag hfind hcond
        t ht
      by_cases h0 : t0.id = id
      · exfalso
        apply hne
        rw [h0] at hcore
        simp only [if_true] at hcore
        calc t.id = (applyTagPatch d now t0).id := hcore.1
        _ = t0.id := rfl
        _ = id := h0
      · simp only [h0, if_false] at hcore
        exact ⟨t0, ht0, hcore⟩
    · have hcond2 : (d.value.isSome || d.display.isSome || d.sort_order.isSome
          || d.parent_tag_id.isSome) = false := by
        revert hcond
        cases d.value.isSome || d.display.isSome || d.sort_order.isSome
          || d.parent_tag_id.isSome <;> simp
      rw [tagUpdate_state_nopatch id d now s oldTag hfind hcond2] at ht
      exact ⟨t, ht, sameCore_refl t⟩
  · intro t ht hid
    constructor
    · intro hcond
      obtain ⟨t0, ht0, hcore⟩ := tagUpdate_mem_chain id d now s oldTag hfind hcond
        t ht
      by_cases h0 : t0.id = id
      · rw [mem_id_unique hnd t0 ht0 oldTag holdmem (h0.trans holdid.symm)] at hcore
        rw [holdid] at hcore
        simpa using hcore
      · exfalso
        apply h0
        simp only [h0, if_false] at hcore
        rw [← hcore.1, hid]
    · intro hcond2
      rw [tagUpdate_state_nopatch id d now s oldTag hfind hcond2] at ht
      exact mem_id_unique hnd t ht oldTag holdmem (hid.trans holdid.symm)
  · intro hskip
    by_cases hcond : (d.value.isSome || d.display.isSome || d.sort_order.isSome
        || d.parent_tag_id.isSome) = true
    · have happly : (tagUpdate id d now s).1 = tagUpdateApply id d now s := by
        rcases hskip with hdp | hdp
        · exact tagUpdate_state_parent_none id d now s oldTag hfind hcond hdp
        · exact tagUpdate_state_parent_same id d now s oldTag
            oldTag.parent_tag_id hfind hcond hdp rfl
      rw [happly]
      show (s.tags.map (fun t2 =>
        if t2.id = id then applyTagPatch d now t2 else t2)).map
          (fun t => t.has_children) = s.tags.map (fun t => t.has_children)
      rw [List.map_map]
      apply List.map_congr_left
      intro t2 _
      by_cases h2 : t2.id = id <;> simp [h2, applyTagPatch]
    · have hcond2 : (d.value.isSome || d.display.isSome || d.sort_order.isSome
          || d.parent_tag_id.isSome) = false := by
        revert hcond
        cases d.value.isSome || d.display.isSome || d.sort_order.isSome
          || d.parent_tag_id.isSome <;> simp
      rw [tagUpdate_state_nopatch id d now s oldTag hfind hcond2]
  · intro newP hdp hnesame t ht hpar
    have hcond : (d.value.isSome || d.display.isSome || d.sort_order.isSome
        || d.parent_tag_id.isSome) = true := by
      simp [hdp]
    cases hold : oldTag.parent_tag_id with
    | some op =>
      cases hnp : newP with
      | some np =>
        have hopnp : (some op : Option Nat) ≠ some np := by
          rw [← hold, ← hnp]
          exact hnesame
        rw [hnp] at hdp
        have hstate := tagUpdate_state_move_both id d now s oldTag op np hfind
          hcond hdp hold hopnp
        rw [hstate] at ht ⊢
        rw [hold, hnp] at hpar
        by_cases hknp : t.id = np
        · rw [hknp, updateHasChildren_flag np _ t ht hknp]
          simp only [updateHasChildren_hasChildrenOf]
        · have hkop : t.id = op := by
            rcases hpar with h | h
            · exact Option.some.inj h
            · exact absurd (Option.some.inj h) hknp
          have ht2 : t ∈ (updateHasChildren op (tagUpdateApply id d now s)).tags :=
            updateHasChildren_mem_ne np _ t ht hknp
          rw [hkop, updateHasChildren_flag op _ t ht2 hkop]
          simp only [updateHasChildren_hasChildrenOf]
      | none =>
        rw [hnp] at hdp
        have hstate := tagUpdate_state_move_tonone id d now s oldTag op hfind
          hcond hdp hold
        rw [hstate] at ht ⊢
        rw [hold, hnp] at hpar
        have hkop : t.id = op := by
          rcases hpar with h | h
          · exact Option.some.inj h
          · cases h
        rw [hkop, updateHasChildren_flag op _ t ht hkop]
        simp only [updateHasChildren_hasChildrenOf]
    | none =>
      cases hnp : newP with
      | some np =>
        rw [hnp] at hdp
        have hstate := tagUpdate_state_move_fromnone id d now s oldTag np hfind
          hcond hdp hold
        rw [hstate] at ht ⊢
        rw [hold, hnp] at hpar
        have hknp : t.id = np := by
          rcases hpar with h | h
          · cases h
          · exact Option.some.inj h
        rw [hknp, updateHasChildren_flag np _ t ht hknp]
        simp only [updateHasChildren_hasChildrenOf]
      | none =>
        exfalso
        apply hnesame
        rw [hold, hnp]

/-- A three-tag store used to witness the update theorem: tag 2 is a child
of tag 1, tag 3 is top-level. -/
def wUpdState : DbState :=
  { tags :=
      [{ id := 1, value := "a", display := "A", sort_order := 0,
         parent_tag_id := none, has_children := true, created_at := 0,
         updated_at := 0 },
       { id := 2, value := "b", display := "B", sort_order := 0,
         parent_tag_id := some 1, has_children := false, created_at := 0,
         updated_at := 0 },
       { id := 3, value := "c", display := "C", sort_order := 0,
         parent_tag_id := none, has_children := false, created_at := 0,
         updated_at := 0 }],
    places := [], placeTags := [] }

/-- The row of tag 2 before the update. -/
def wUpdOld : Tag :=
  { id := 2, value := "b", display := "B", sort_order := 0,
    parent_tag_id := some 1, has_children := false, created_at := 0,
    updated_at := 0 }

/-- A patch moving tag 2 from parent 1 to parent 3. -/
def wUpdPatch : TagPatch := { parent_tag_id := some (some 3) }

/-- The row of the new parent after the update: its flag was recomputed. -/
def wNewParent : Tag :=
  { id := 3, value := "c", display := "C", sort_order := 0,
    parent_tag_id := none, has_children := true, created_at := 0,
    updated_at := 0 }

/-- Witness: reparenting tag 2 under tag 3 recomputes the new parent's
flag to the existence check. -/
theorem tagUpdate_applies_patch_witness :
    (tagIds wUpdState.tags).Nodup ∧
    tagFindById wUpdState 2 = some wUpdOld ∧
    wNewParent ∈ (tagUpdate 2 wUpdPatch 7 wUpdState).1.tags ∧
    (some wNewParent.id = wUpdOld.parent_tag_id ∨ some wNewParent.id = some 3) ∧
    wNewParent.has_children
      = hasChildrenOf (tagUpdate 2 wUpdPatch 7 wUpdState).1.tags wNewParent.id := by
  refine ⟨by decide, by decide, by decide, by decide, ?_⟩
  exact (tagUpdate_applies_patch 2 wUpdPatch 7 wUpdState wUpdOld (by decide)
    (by decide)).2.2.2 (some 3) rfl (by decide) wNewParent (by decide) (by decide)

/-! ### Tag delete (claim C8) -/

/-- `updateHasChildren` does not touch the junction table. -/
theorem updateHasChildren_placeTags (pid : Nat) (s : DbState) :
    (updateHasChildren pid s).placeTags = s.placeTags := rfl

/-- `updateHasChildren` does not change the id column. -/
theorem tagIds_updateHasChildren (pid : Nat) (s : DbState) :
    tagIds (updateHasChildren pid s).tags = tagIds s.tags := by
  unfold tagIds updateHasChildren
  rw [List.map_map]
  apply List.map_congr_left
  intro t _
  by_cases h : t.id = pid <;> simp [h]

/-- The junction table after the cascading delete. -/
theorem tagDeleteApply_placeTags (id : Nat) (s : DbState) :
    (tagDeleteApply id s).placeTags
      = (s.placeTags.filter (fun pt => pt.2 ≠ id)).filter
          (fun pt => !((cascadeDead s.tags [id]).contains pt.2)) := rfl

/-- C8: deleting an existing tag removes all of its place associations,
removes the tag row and (by cascade) every child row together with the
children's junction rows — leaving no junction row that references a
missing tag — recomputes `has_children` for the former parent when there is
one, and returns true; deleting a missing id changes nothing and returns
false. -/
theorem tagDelete_spec (id : Nat) (s : DbState) (tag : Tag)
    (hint : ∀ pt ∈ s.placeTags, pt.2 ∈ tagIds s.tags)
    (hfind : tagFindById s id = some tag) :
    (tagDelete id s).2 = true ∧
    (∀ id2, tagFindById s id2 = none → tagDelete id2 s = (s, false)) ∧
    (∀ pt ∈ (tagDelete id s).1.placeTags, pt.2 ≠ id) ∧
    (∀ pt ∈ (tagDelete id s).1.placeTags, pt.2 ∈ tagIds (tagDelete id s).1.tags) ∧
    (∀ t ∈ (tagDelete id s).1.tags, t.id ≠ id ∧ t.parent_tag_id ≠ some id) ∧
    (∀ t ∈ (tagDelete id s).1.tags, some t.id = tag.parent_tag_id →
      t.has_children = hasChildrenOf (tagDelete id s).1.tags t.id) := by
  have hid_dead : id ∈ cascadeDead s.tags [id] :=
    cascadeAux_subset s.tags s.tags.length [id] (List.mem_singleton_self id)
  have happly : (tagDelete id s).1 = (match tag.parent_tag_id with
      | some pid => updateHasChildren pid (tagDeleteApply id s)
      | none => tagDeleteApply id s) := by
    cases hpar : tag.parent_tag_id with
    | none => rw [tagDelete_state_none id s tag hfind hpar]
    | some pid => rw [tagDelete_state_some id s tag pid hfind hpar]
  have hPT : (tagDelete id s).1.placeTags = (tagDeleteApply id s).placeTags := by
    rw [happly]
    cases tag.parent_tag_id <;> rfl
  have hmemPT : ∀ pt ∈ (tagDelete id s).1.placeTags,
      pt ∈ s.placeTags ∧ pt.2 ≠ id ∧ pt.2 ∉ cascadeDead s.tags [id] := by
    intro pt hpt
    rw [hPT, tagDeleteApply_placeTags] at hpt
    have h1 := List.mem_of_mem_filter hpt
    have h2 := List.of_mem_filter hpt
    have h3 := List.of_mem_filter h1
    refine ⟨List.mem_of_mem_filter h1, by simpa using h3, by simpa using h2⟩
  have hmemT : ∀ t ∈ (tagDelete id s).1.tags,
      t ∈ (tagDeleteApply id s).tags ∨
        (∃ t0 ∈ (tagDeleteApply id s).tags, sameCore t t0) := by
    intro t ht
    rw [happly] at ht
    cases hpar : tag.parent_tag_id with
    | none =>
      simp only [hpar] at ht
      exact Or.inl ht
    | some pid =>
      simp only [hpar] at ht
      obtain ⟨t0, ht0, hcore, _⟩ := updateHasChildren_mem_fields pid _ t ht
      exact Or.inr ⟨t0, ht0, hcore⟩
  have hmemT2 : ∀ t ∈ (tagDelete id s).1.tags,
      ∃ t0 ∈ s.tags, t.id = t0.id ∧ t.parent_tag_id = t0.parent_tag_id ∧
        t0.id ∉ cascadeDead s.tags [id] := by
    intro t ht
    have hstep : ∀ t1 ∈ (tagDeleteApply id s).tags,
        t1 ∈ s.tags ∧ t1.id ∉ cascadeDead s.tags [id] := by
      intro t1 ht1
      rw [tagDeleteApply_tags] at ht1
      have h1 := List.mem_of_mem_filter ht1
      have h2 := List.of_mem_filter ht1
      exact ⟨h1, by simpa using h2⟩
    rcases hmemT t ht with h | ⟨t0, ht0, hcore⟩
    · obtain ⟨h1, h2⟩ := hstep t h
      exact ⟨t, h1, rfl, rfl, h2⟩
    · obtain ⟨h1, h2⟩ := hstep t0 ht0
      exact ⟨t0, h1, hcore.1, hcore.2.2.2.2.1, h2⟩
  have htagids : tagIds (tagDelete id s).1.tags = tagIds (tagDeleteApply id s).tags := by
    rw [happly]
    cases tag.parent_tag_id with
    | none => rfl
    | some pid => rw [tagIds_updateHasChildren]
  refine ⟨?_, ?_, ?_, ?_, ?_, ?_⟩
  · cases hpar : tag.parent_tag_id with
    | none => rw [tagDelete_state_none id s tag hfind hpar]
    | some pid => rw [tagDelete_state_some id s tag pid hfind hpar]
  · intro id2 hfind2
    exact tagDelete_state_nofind id2 s hfind2
  · intro pt hpt
    exact (hmemPT pt hpt).2.1
  · intro pt hpt
    obtain ⟨hpt0, _, hptdead⟩ := hmemPT pt hpt
    have hptid := hint pt hpt0
    rw [htagids]
    unfold tagIds at hptid ⊢
    simp only [List.mem_map] at hptid ⊢
    obtain ⟨t0, ht0, ht0id⟩ := hptid
    refine ⟨t0, ?_, ht0id⟩
    rw [tagDeleteApply_tags, List.mem_filter]
    refine ⟨ht0, ?_⟩
    rw [ht0id]
    simpa using hptdead
  · intro t ht
    obtain ⟨t0, ht0, hid0, hpar0, hdead0⟩ := hmemT2 t ht
    constructor
    · intro he
      apply hdead0
      rw [← hid0, he]
      exact hid_dead
    · intro he
      apply hdead0
      apply children_mem_cascadeDead s.tags id t0 ht0
      rw [← hpar0]
      exact he
  · intro t ht hp
    cases hpar : tag.parent_tag_id with
    | none =>
      rw [hpar] at hp
      cases hp
    | some pid =>
      rw [hpar] at hp
      have hpid : t.id = pid := Option.some.inj hp
      have hstate : (tagDelete id s).1 = updateHasChildren pid (tagDeleteApply id s) := by
        rw [tagDelete_state_some id s tag pid hfind hpar]
      rw [hstate] at ht ⊢
      rw [updateHasChildren_flag pid _ t ht hpid]
      rw [updateHasChildren_hasChildrenOf, hpid]

/-- A store with a parent tag, a child tag, and junction rows on both, used
to witness the delete theorem. -/
def wDelState : DbState :=
  { tags :=
      [{ id := 1, value := "p", display := "P", sort_order := 0,
         parent_tag_id := none, has_children := true, created_at := 0,
         updated_at := 0 },
       { id := 2, value := "c", display := "C", sort_order := 0,
         parent_tag_id := some 1, has_children := false, created_at := 0,
         updated_at := 0 }],
    places := [{ id := 10, name := "joes", address := none, phone := none,
                 url := none, specials := none, categories := none,
                 notes := none, created_at := 0, updated_at := 0 }],
    placeTags := [(10, 1), (10, 2)] }

/-- The child row to be deleted in the witness. -/
def wDelChild : Tag :=
  { id := 2, value := "c", display := "C", sort_order := 0,
    parent_tag_id := some 1, has_children := false, created_at := 0,
    updated_at := 0 }

/-- Witness: deleting the child tag reports true and leaves no junction row
for it. -/
theorem tagDelete_spec_witness :
    (∀ pt ∈ wDelState.placeTags, pt.2 ∈ tagIds wDelState.tags) ∧
    tagFindById wDelState 2 = some wDelChild ∧
    (tagDelete 2 wDelState).2 = true ∧
    (∀ pt ∈ (tagDelete 2 wDelState).1.placeTags, pt.2 ≠ 2) := by
  refine ⟨by decide, by decide, ?_, ?_⟩
  · exact (tagDelete_spec 2 wDelState wDelChild (by decide) (by decide)).1
  · exact (tagDelete_spec 2 wDelState wDelChild (by decide) (by decide)).2.2.1

/-! ### Place update frame (claim C7) -/

/-- Finding by id commutes with an id-preserving conditional map. -/
theorem find?_id_map (l : List PlaceRow) (id : Nat) (f : PlaceRow → PlaceRow)
    (hid : ∀ p, (f p).id = p.id) :
    (l.map (fun p => if p.id = id then f p else p)).find? (fun p => p.id = id)
      = (l.find? (fun p => p.id = id)).map f := by
  induction l with
  | nil => rfl
  | cons c rest ih =>
    by_cases hc : c.id = id
    · simp [List.find?_cons, hc, hid]
    · simp [List.find?_cons, hc, hid, ih]

/-- The empty patch short-circuits: the state is untouched and the current
record is returned. -/
theorem placeUpdate_state_empty (id : Nat) (now : Nat) (s : DbState) :
    placeUpdate id {} now s = (s, placeFindById s id) := by
  unfold placeUpdate
  simp [patchHasRealField]

/-- A real patch without a tag list, on an existing id, maps the row table
and re-reads. -/
theorem placeUpdate_state_real (id : Nat) (d : PlacePatch) (now : Nat)
    (s : DbState) (hreal : patchHasRealField d = true)
    (hex : s.places.any (fun p => p.id = id) = true) (htags : d.tags = none) :
    placeUpdate id d now s =
      ({ s with places := s.places.map (fun p =>
          if p.id = id then applyPlacePatch d now p else p) },
        placeFindById { s with places := s.places.map (fun p =>
          if p.id = id then applyPlacePatch d now p else p) } id) := by
  unfold placeUpdate
  simp only [hreal, if_true, hex, htags]

/-- C7: updating an existing place with an empty patch returns the current
record and changes nothing; updating it with a name-only patch changes only
the name and `updated_at` columns of that place's row, leaving every other
row, every tag, and the tag associations untouched, and returns the refreshed
record. -/
theorem placeUpdate_noop_and_name_frame (id : Nat) (now : Nat) (s : DbState)
    (hex : s.places.any (fun p => p.id = id) = true) :
    placeUpdate id {} now s = (s, placeFindById s id) ∧
    (placeFindById s id).isSome = true ∧
    (∀ n : String,
      ((placeUpdate id { name := some n } now s).1.places.find?
          (fun p => p.id = id))
        = (s.places.find? (fun p => p.id = id)).map
            (fun p => { p with name := n, updated_at := now }) ∧
      (∀ q ∈ (placeUpdate id { name := some n } now s).1.places,
        q.id ≠ id → q ∈ s.places) ∧
      (placeUpdate id { name := some n } now s).1.placeTags = s.placeTags ∧
      (placeUpdate id { name := some n } now s).1.tags = s.tags ∧
      (placeUpdate id { name := some n } now s).2
        = (placeFindById s id).map (fun pl =>
            { pl with name := n, updated_at := now })) := by
  refine ⟨placeUpdate_state_empty id now s, ?_, ?_⟩
  · unfold placeFindById
    cases hfind2 : List.find? (fun p => p.id = id) s.places with
    | none =>
      exfalso
      rw [List.any_eq_true] at hex
      obtain ⟨p, hp, hpid⟩ := hex
      have h3 := List.find?_eq_none.1 hfind2 p hp
      simp only [decide_eq_true_eq] at hpid h3
      exact h3 hpid
    | some q => rfl
  · intro n
    have hreal : patchHasRealField { name := some n } = true := rfl
    have hstate := placeUpdate_state_real id { name := some n } now s hreal hex rfl
    have happ : ∀ p : PlaceRow, applyPlacePatch { name := some n } now p
        = { p with name := n, updated_at := now } := fun p => rfl
    refine ⟨?_, ?_, ?_, ?_, ?_⟩
    · rw [hstate]
      show (s.places.map (fun p =>
        if p.id = id then applyPlacePatch { name := some n } now p else p)).find?
          (fun p => p.id = id) = _
      rw [find?_id_map s.places id (applyPlacePatch { name := some n } now)
        (fun p => rfl)]
      exact congrFun (congrArg Option.map (funext happ)) _
    · intro q hq hqid
      rw [hstate] at hq
      simp only [List.mem_map] at hq
      obtain ⟨q0, hq0, heq⟩ := hq
      by_cases h0 : q0.id = id
      · exfalso
        apply hqid
        rw [← heq]
        simp [h0, applyPlacePatch]
      · rw [← heq]
        simp only [h0, if_false]
        exact hq0
    · rw [hstate]
    · rw [hstate]
    · rw [hstate]
      show placeFindById { s with places := _ } id = _
      unfold placeFindById
      have hvals : placeTagValues { s with places := s.places.map (fun p =>
          if p.id = id then applyPlacePatch { name := some n } now p else p) } id
          = placeTagValues s id := rfl
      rw [hvals]
      rw [find?_id_map s.places id (applyPlacePatch { name := some n } now)
        (fun p => rfl)]
      rw [Option.map_map, Option.map_map]
      refine congrFun (congrArg Option.map (funext (fun p => ?_))) _
      show ({ toPlaceRow := applyPlacePatch { name := some n } now p,
              tags := placeTagValues s id } : Place)
        = { toPlaceRow := { p with name := n, updated_at := now },
            tags := placeTagValues s id }
      rw [happ p]

/-- A store with one place carrying one tag, used to witness the update
frame. -/
def wPlState : DbState :=
  { tags := [{ id := 1, value := "food", display := "Food", sort_order := 0,
               parent_tag_id := none, has_children := false, created_at := 0,
               updated_at := 0 }],
    places := [{ id := 10, name := "Old Name", address := some "5 St Marks",
                 phone := none, url := none, specials := none,
                 categories := none, notes := none, created_at := 0,
                 updated_at := 0 }],
    placeTags := [(10, 1)] }

/-- Witness: the empty patch is a no-op and a name-only patch leaves the tag
associations untouched. -/
theorem placeUpdate_noop_and_name_frame_witness :
    (wPlState.places.any (fun p => p.id = 10)) = true ∧
    placeUpdate 10 {} 9 wPlState = (wPlState, placeFindById wPlState 10) ∧
    (placeUpdate 10 { name := some "New Name" } 9 wPlState).1.placeTags
      = wPlState.placeTags := by
  refine ⟨by decide, ?_, ?_⟩
  · exact (placeUpdate_noop_and_name_frame 10 9 wPlState (by decide)).1
  · exact ((placeUpdate_noop_and_name_frame 10 9 wPlState
      (by decide)).2.2 "New Name").2.2.1

/-! ### Filtered place list (claim C10) -/

/-- C10: filtering the place list by a tag value returns only places
associated with that tag, each still carrying its complete tag-value list
(all associated tags, ordered by tag sort order), with the results sorted by
name ascending. -/
theorem placeFindAll_filtered_spec (s : DbState) (v : String) :
    ((placeFindAll s (some v)).map (fun pl => pl.name)).Sorted (fun a b => a ≤ b) ∧
    ∀ pl ∈ placeFindAll s (some v),
      (∃ t ∈ s.tags, t.value = v ∧ (pl.id, t.id) ∈ s.placeTags) ∧
      pl.tags = (assocTags s pl.id).map (fun t => t.value) ∧
      ((assocTags s pl.id).map (fun t => t.sort_order)).Sorted
        (fun a b => a ≤ b) ∧
      (∀ t : Tag, t ∈ assocTags s pl.id ↔
        t ∈ s.tags ∧ (pl.id, t.id) ∈ s.placeTags) := by
  constructor
  · unfold placeFindAll
    rw [List.map_map]
    have hs := List.sorted_insertionSort nameLe
      (s.places.filter (fun p => placeHasTagValue s p.id v))
    exact List.Pairwise.map _ (fun a b hab => hab) hs
  · intro pl hpl
    unfold placeFindAll at hpl
    simp only [List.mem_map] at hpl
    obtain ⟨p, hp, heq⟩ := hpl
    have hpbase : p ∈ s.places.filter (fun p => placeHasTagValue s p.id v) :=
      (List.perm_insertionSort nameLe _).mem_iff.1 hp
    have hpmem := List.mem_of_mem_filter hpbase
    have hptag : placeHasTagValue s p.id v = true := by
      have := List.of_mem_filter hpbase
      simpa using this
    have hplid : pl.id = p.id := by rw [← heq]
    have hpltags : pl.tags = placeTagValues s p.id := by rw [← heq]
    refine ⟨?_, ?_, ?_, ?_⟩
    · unfold placeHasTagValue at hptag
      rw [List.any_eq_true] at hptag
      obtain ⟨pt, hptmem, hcond⟩ := hptag
      obtain ⟨pt1, pt2⟩ := pt
      simp only [Bool.and_eq_true, List.any_eq_true, decide_eq_true_eq] at hcond
      obtain ⟨hpt1, t, htmem, htid, htval⟩ := hcond
      refine ⟨t, htmem, htval, ?_⟩
      rw [hplid, ← hpt1, htid]
      exact hptmem
    · rw [hpltags, hplid]
      rfl
    · have hs := List.sorted_insertionSort sortOrderLe
        (s.tags.filter (fun t => s.placeTags.contains (pl.id, t.id)))
      exact List.Pairwise.map _ (fun a b hab => hab) hs
    · intro t
      unfold assocTags
      rw [(List.perm_insertionSort sortOrderLe _).mem_iff, List.mem_filter]
      constructor
      · rintro ⟨h1, h2⟩
        exact ⟨h1, by simpa using h2⟩
      · rintro ⟨h1, h2⟩
        exact ⟨h1, by simpa using h2⟩

/-- A store with two places, one carrying two tags, used to witness the
filtered list. -/
def wListState : DbState :=
  { tags :=
      [{ id := 1, value := "food", display := "Food", sort_order := 1,
         parent_tag_id := none, has_children := false, created_at := 0,
         updated_at := 0 },
       { id := 2, value := "bar", display := "Bar", sort_order := 0,
         parent_tag_id := none, has_children := false, created_at := 0,
         updated_at := 0 }],
    places :=
      [{ id := 10, name := "Joes", address := none, phone := none, url := none,
         specials := none, categories := none, notes := none, created_at := 0,
         updated_at := 0 },
       { id := 11, name := "Zed", address := none, phone := none, url := none,
         specials := none, categories := none, notes := none, created_at := 0,
         updated_at := 0 }],
    placeTags := [(10, 1), (10, 2)] }

/-- The aggregated record of the tagged place: the full tag-value list in
sort order. -/
def wJoePlace : Place :=
  { id := 10, name := "Joes", address := none, phone := none, url := none,
    specials := none, categories := none, notes := none, created_at := 0,
    updated_at := 0, tags := ["bar", "food"] }

/-- Witness: filtering by `food` returns the tagged place with its complete
two-tag value list. -/
theorem placeFindAll_filtered_spec_witness :
    wJoePlace ∈ placeFindAll wListState (some "food") ∧
    (∃ t ∈ wListState.tags, t.value = "food" ∧
      (wJoePlace.id, t.id) ∈ wListState.placeTags) ∧
    wJoePlace.tags = (assocTags wListState wJoePlace.id).map (fun t => t.value) := by
  refine ⟨by decide, ?_, ?_⟩
  · exact ((placeFindAll_filtered_spec wListState "food").2 wJoePlace
      (by decide)).1
  · exact ((placeFindAll_filtered_spec wListState "food").2 wJoePlace
      (by decide)).2.1

/-! ### Bulk save idempotence (claim C3) -/

/-- The comparison projection of the idempotence claim: value, display and
sort order. -/
def tagProj (t : Tag) : String × String × Int := (t.value, t.display, t.sort_order)

/-- The projection keyed additionally by id, used inside the proofs. -/
def tagKeyProj (t : Tag) : Nat × String × String × Int :=
  (t.id, t.value, t.display, t.sort_order)

/-- A store with a parent and a child tag, on which `bulkSave` is not
idempotent: the input keeps the child's value and drops the parent's. -/
def bulkCexState : DbState :=
  { tags :=
      [{ id := 1, value := "p", display := "P", sort_order := 0,
         parent_tag_id := none, has_children := true, created_at := 0,
         updated_at := 0 },
       { id := 2, value := "c", display := "C", sort_order := 0,
         parent_tag_id := some 1, has_children := false, created_at := 0,
         updated_at := 0 }],
    places := [], placeTags := [] }

/-- The bulk input that keeps only the child's value. -/
def bulkCexInput : List TagInput :=
  [{ value := "c", display := "C2", sort_order := 0 }]

/-- C3 counterexample: running `bulkSave` twice with the same input differs
from running it once.  The delete of the parent cascades into the kept
child, so the first run's update of the child hits no row and the value is
lost; the second run re-inserts it. -/
theorem bulkSave_not_idempotent_cex :
    ((bulkSave bulkCexInput 6 20 (bulkSave bulkCexInput 5 10 bulkCexState).1).1.tags.map
        tagProj)
      ≠ ((bulkSave bulkCexInput 5 10 bulkCexState).1.tags.map tagProj) := by
  decide

/-- A successful snapshot lookup returns a row of the snapshot bearing the
looked-up value. -/
theorem tagSnapshotGet_some (l : List Tag) (v : String) (ex : Tag)
    (h : tagSnapshotGet l v = some ex) : ex ∈ l ∧ ex.value = v := by
  unfold tagSnapshotGet at h
  constructor
  · exact List.mem_reverse.1 (List.mem_of_find?_eq_some h)
  · have := List.find?_some h
    simpa using this

/-- A failed snapshot lookup means no row bears the value. -/
theorem tagSnapshotGet_none (l : List Tag) (v : String)
    (h : tagSnapshotGet l v = none) : ∀ r ∈ l, r.value ≠ v := by
  intro r hr he
  have := List.find?_eq_none.1 h r (List.mem_reverse.2 hr)
  simp [he] at this

/-- With distinct values, the snapshot lookup of a member's value returns
exactly that member. -/
theorem tagSnapshotGet_of_mem (l : List Tag) (r : Tag) (hr : r ∈ l)
    (hnd : (l.map (fun t => t.value)).Nodup) :
    tagSnapshotGet l r.value = some r := by
  cases h : tagSnapshotGet l r.value with
  | none => exact absurd rfl (tagSnapshotGet_none l r.value h r hr)
  | some ex =>
    obtain ⟨hexmem, hexval⟩ := tagSnapshotGet_some l r.value ex h
    have : ex = r := List.inj_on_of_nodup_map hnd hexmem hr (by rw [hexval])
    rw [this]

/-- If every input entry already has, in the (id-distinct) snapshot, a row
carrying its display and sort order, and the running table agrees with the
snapshot up to the key projection, then the upsert loop never changes the
key projection of the table. -/
theorem bulk_fold_keyProj_fixed (s1tags : List Tag) (now : Nat)
    (hnds : (s1tags.map (fun t => t.id)).Nodup) :
    ∀ (input : List TagInput) (st : DbState) (ctr : Nat),
      (∀ d ∈ input, ∃ ex, tagSnapshotGet s1tags d.value = some ex ∧
        ex.display = d.display ∧ ex.sort_order = d.sort_order) →
      st.tags.map tagKeyProj = s1tags.map tagKeyProj →
      ((input.foldl (bulkUpsertStep s1tags now) (st, ctr)).1).tags.map tagKeyProj
        = s1tags.map tagKeyProj := by
  intro input
  induction input with
  | nil => intro st ctr _ hP; exact hP
  | cons d rest ih =>
    intro st ctr hF2 hP
    obtain ⟨ex, hex, hexd, hexs⟩ := hF2 d (List.mem_cons_self d rest)
    rw [List.foldl_cons]
    have hstep : bulkUpsertStep s1tags now (st, ctr) d
        = ({ st with
              tags := st.tags.map (fun t =>
                if t.id = ex.id then
                  { t with
                      display := d.display,
                      sort_order := d.sort_order,
                      updated_at := now }
                else t) }, ctr) := by
      unfold bulkUpsertStep
      rw [hex]
    rw [hstep]
    apply ih _ _ (fun d2 hd2 => hF2 d2 (List.mem_cons_of_mem d hd2))
    show (st.tags.map _).map tagKeyProj = _
    rw [List.map_map, ← hP]
    apply List.map_congr_left
    intro r hr
    by_cases hrid : r.id = ex.id
    · obtain ⟨hexmem, hexval⟩ := tagSnapshotGet_some s1tags d.value ex hex
      have hmem : tagKeyProj r ∈ s1tags.map tagKeyProj := by
        rw [← hP]
        exact List.mem_map_of_mem tagKeyProj hr
      obtain ⟨r1, hr1, hkey⟩ := List.mem_map.1 hmem
      simp only [tagKeyProj, Prod.mk.injEq] at hkey
      have hr1ex : r1 = ex :=
        List.inj_on_of_nodup_map hnds hr1 hexmem (by rw [hkey.1, hrid])
      show tagKeyProj (if r.id = ex.id then _ else r) = tagKeyProj r
      rw [if_pos hrid]
      show (r.id, r.value, d.display, d.sort_order) = tagKeyProj r
      rw [hr1ex] at hkey
      unfold tagKeyProj
      rw [← hkey.2.2.1, ← hkey.2.2.2, hexd, hexs]
    · show tagKeyProj (if r.id = ex.id then _ else r) = tagKeyProj r
      rw [if_neg hrid]

/-- The upsert step when the snapshot holds the value: an in-place update. -/
theorem bulkUpsertStep_some (snapshot : List Tag) (now : Nat) (st : DbState)
    (ctr : Nat) (d : TagInput) (ex : Tag)
    (hex : tagSnapshotGet snapshot d.value = some ex) :
    bulkUpsertStep snapshot now (st, ctr) d
      = ({ st with
            tags := st.tags.map (fun t =>
              if t.id = ex.id then
                { t with
                    display := d.display,
                    sort_order := d.sort_order,
                    updated_at := now }
              else t) }, ctr) := by
  unfold bulkUpsertStep
  rw [hex]

/-- The upsert step when the snapshot lacks the value: an insert with the
next fresh id. -/
theorem bulkUpsertStep_none (snapshot : List Tag) (now : Nat) (st : DbState)
    (ctr : Nat) (d : TagInput)
    (hex : tagSnapshotGet snapshot d.value = none) :
    bulkUpsertStep snapshot now (st, ctr) d
      = ({ st with
            tags := st.tags ++
              [{ id := ctr, value := d.value, display := d.display,
                 sort_order := d.sort_order, parent_tag_id := d.parent_tag_id,
                 has_children := false, created_at := now,
                 updated_at := now }] }, ctr + 1) := by
  unfold bulkUpsertStep
  rw [hex]

/-- Characterization of the upsert loop of a `bulkSave` run: starting from a
table with distinct values and distinct bounded ids that agrees with the
snapshot on which values are present, the loop keeps values and ids
distinct, introduces only input values, gives every input entry a row with
its display and sort order, and passes rows with untouched values through
unchanged. -/
theorem bulk_fold_run (snapshot : List Tag) (now : Nat) :
    ∀ (suf : List TagInput) (st : DbState) (ctr : Nat),
      (st.tags.map (fun t => t.value)).Nodup →
      (st.tags.map (fun t => t.id)).Nodup →
      (∀ t ∈ st.tags, t.id < ctr) →
      (∀ t ∈ snapshot, t.id < ctr) →
      (suf.map (fun d => d.value)).Nodup →
      (∀ d ∈ suf, match tagSnapshotGet snapshot d.value with
        | some ex => ∃ row ∈ st.tags, row.id = ex.id ∧ row.value = d.value
        | none => ∀ row ∈ st.tags, row.value ≠ d.value) →
      (((suf.foldl (bulkUpsertStep snapshot now) (st, ctr)).1.tags.map
          (fun t => t.value)).Nodup ∧
        ((suf.foldl (bulkUpsertStep snapshot now) (st, ctr)).1.tags.map
          (fun t => t.id)).Nodup) ∧
      (∀ t ∈ (suf.foldl (bulkUpsertStep snapshot now) (st, ctr)).1.tags,
        t.value ∈ st.tags.map (fun t2 => t2.value) ∨
          t.value ∈ suf.map (fun d => d.value)) ∧
      (∀ d ∈ suf, ∃ row ∈ (suf.foldl (bulkUpsertStep snapshot now) (st, ctr)).1.tags,
        row.value = d.value ∧ row.display = d.display ∧
          row.sort_order = d.sort_order) ∧
      (∀ r ∈ st.tags, r.value ∉ suf.map (fun d => d.value) →
        r ∈ (suf.foldl (bulkUpsertStep snapshot now) (st, ctr)).1.tags) := by
  intro suf
  induction suf with
  | nil =>
    intro st ctr h1 h2 _ _ _ _
    exact ⟨⟨h1, h2⟩, fun t ht => Or.inl (List.mem_map_of_mem _ ht),
      fun d hd => absurd hd (List.not_mem_nil d), fun r hr _ => hr⟩
  | cons d rest ih =>
    intro st ctr h1 h2 h3 h4 h5 h6
    have h5t : (rest.map (fun d2 => d2.value)).Nodup := (List.nodup_cons.1 h5).2
    have h5h : d.value ∉ rest.map (fun d2 => d2.value) := (List.nodup_cons.1 h5).1
    cases hsnap : tagSnapshotGet snapshot d.value with
    | some ex =>
      have hrow := h6 d (List.mem_cons_self d rest)
      rw [hsnap] at hrow
      obtain ⟨row, hrowmem, hrowid, hrowval⟩ := hrow
      rw [List.foldl_cons, bulkUpsertStep_some snapshot now st ctr d ex hsnap]
      have hval_pres : (st.tags.map (fun t =>
          if t.id = ex.id then
            { t with
                display := d.display, sort_order := d.sort_order,
                updated_at := now }
          else t)).map (fun t => t.value) = st.tags.map (fun t => t.value) := by
        rw [List.map_map]
        apply List.map_congr_left
        intro t _
        by_cases h : t.id = ex.id <;> simp [h]
      have hid_pres : (st.tags.map (fun t =>
          if t.id = ex.id then
            { t with
                display := d.display, sort_order := d.sort_order,
                updated_at := now }
          else t)).map (fun t => t.id) = st.tags.map (fun t => t.id) := by
        rw [List.map_map]
        apply List.map_congr_left
        intro t _
        by_cases h : t.id = ex.id <;> simp [h]
      obtain ⟨⟨c1, c2⟩, c3, c4, c5⟩ := ih
        { st with tags := st.tags.map (fun t =>
            if t.id = ex.id then
              { t with
                  display := d.display, sort_order := d.sort_order,
                  updated_at := now }
            else t) } ctr
        (by rw [hval_pres]; exact h1)
        (by rw [hid_pres]; exact h2)
        (by
          intro t ht
          simp only [List.mem_map] at ht
          obtain ⟨t0, ht0, heq⟩ := ht
          have : t.id = t0.id := by
            rw [← heq]
            by_cases h : t0.id = ex.id <;> simp [h]
          rw [this]
          exact h3 t0 ht0)
        h4 h5t
        (by
          intro d2 hd2
          have hd2full := h6 d2 (List.mem_cons_of_mem d hd2)
          cases hsnap2 : tagSnapshotGet snapshot d2.value with
          | some ex2 =>
            rw [hsnap2] at hd2full
            obtain ⟨row2, hrow2mem, hrow2id, hrow2val⟩ := hd2full
            refine ⟨if row2.id = ex.id then
                { row2 with
                    display := d.display, sort_order := d.sort_order,
                    updated_at := now }
              else row2, List.mem_map_of_mem _ hrow2mem, ?_, ?_⟩
            · by_cases h : row2.id = ex.id
              · rw [if_pos h]
                exact hrow2id
              · rw [if_neg h]
                exact hrow2id
            · by_cases h : row2.id = ex.id
              · rw [if_pos h]
                exact hrow2val
              · rw [if_neg h]
                exact hrow2val
          | none =>
            rw [hsnap2] at hd2full
            intro t ht
            simp only [List.mem_map] at ht
            obtain ⟨t0, ht0, heq⟩ := ht
            have : t.value = t0.value := by
              rw [← heq]
              by_cases h : t0.id = ex.id <;> simp [h]
            rw [this]
            exact hd2full t0 ht0)
      refine ⟨⟨c1, c2⟩, ?_, ?_, ?_⟩
      · intro t ht
        rcases c3 t ht with h | h
        · rw [hval_pres] at h
          exact Or.inl h
        · refine Or.inr ?_
          rw [List.map_cons]
          exact List.mem_cons_of_mem _ h
      · intro d2 hd2
        rcases List.mem_cons.1 hd2 with rfl | hd2r
        · -- the updated row for the head entry, persisting through the rest
          have hupd : (fun t =>
              if t.id = ex.id then
                { t with
                    display := d2.display, sort_order := d2.sort_order,
                    updated_at := now }
              else t) row = { row with
                display := d2.display, sort_order := d2.sort_order,
                updated_at := now } := by
            simp [hrowid]
          have hmem2 : ({ row with
              display := d2.display, sort_order := d2.sort_order,
              updated_at := now } : Tag) ∈ (({ st with
                tags := st.tags.map (fun t =>
                  if t.id = ex.id then
                    { t with
                        display := d2.display, sort_order := d2.sort_order,
                        updated_at := now }
                  else t) } : DbState)).tags := by
            rw [← hupd]
            exact List.mem_map_of_mem _ hrowmem
          have hpersist := c5 _ hmem2 (by simpa [hrowval] using h5h)
          exact ⟨_, hpersist, by simpa using hrowval, rfl, rfl⟩
        · exact c4 d2 hd2r
      · intro r hr hnv
        have hrneq : r.value ≠ d.value := by
          intro he
          exact hnv (by rw [he]; exact List.mem_map_of_mem _ (List.mem_cons_self d rest))
        have hrid : r.id ≠ ex.id := by
          intro he
          have : r = row := List.inj_on_of_nodup_map h2 hr hrowmem (by rw [he, hrowid])
          rw [this] at hrneq
          exact hrneq hrowval
        have hrmem : r ∈ (({ st with
            tags := st.tags.map (fun t =>
              if t.id = ex.id then
                { t with
                    display := d.display, sort_order := d.sort_order,
                    updated_at := now }
              else t) } : DbState)).tags := by
          have : (fun t =>
              if t.id = ex.id then
                { t with
                    display := d.display, sort_order := d.sort_order,
                    updated_at := now }
              else t) r = r := by simp [hrid]
          rw [← this]
          exact List.mem_map_of_mem _ hr
        refine c5 r hrmem (fun hmem => hnv ?_)
        rw [List.map_cons]
        exact List.mem_cons_of_mem _ hmem
    | none =>
      have hnone := h6 d (List.mem_cons_self d rest)
      rw [hsnap] at hnone
      rw [List.foldl_cons, bulkUpsertStep_none snapshot now st ctr d hsnap]
      obtain ⟨⟨c1, c2⟩, c3, c4, c5⟩ := ih
        { st with tags := st.tags ++
            [{ id := ctr, value := d.value, display := d.display,
               sort_order := d.sort_order, parent_tag_id := d.parent_tag_id,
               has_children := false, created_at := now, updated_at := now }] }
        (ctr + 1)
        (by
          rw [List.map_append]
          apply List.Nodup.append h1 (List.nodup_singleton _)
          intro v hv hv2
          simp only [List.map_cons, List.map_nil, List.mem_singleton] at hv2
          simp only [List.mem_map] at hv
          obtain ⟨r, hr, hrv⟩ := hv
          exact hnone r hr (by rw [hrv, hv2]))
        (by
          rw [List.map_append]
          apply List.Nodup.append h2 (List.nodup_singleton _)
          intro i hi hi2
          simp only [List.map_cons, List.map_nil, List.mem_singleton] at hi2
          simp only [List.mem_map] at hi
          obtain ⟨r, hr, hri⟩ := hi
          have hlt := h3 r hr
          rw [hri, hi2] at hlt
          exact absurd hlt (lt_irrefl _))
        (by
          intro t ht
          rcases List.mem_append.1 ht with h | h
          · exact Nat.lt_succ_of_lt (h3 t h)
          · rw [List.mem_singleton] at h
            rw [h]
            exact Nat.lt_succ_self ctr)
        (fun t ht => Nat.lt_succ_of_lt (h4 t ht))
        h5t
        (by
          intro d2 hd2
          have hd2full := h6 d2 (List.mem_cons_of_mem d hd2)
          cases hsnap2 : tagSnapshotGet snapshot d2.value with
          | some ex2 =>
            rw [hsnap2] at hd2full
            obtain ⟨row2, hrow2mem, hrow2id, hrow2val⟩ := hd2full
            exact ⟨row2, List.mem_append_left _ hrow2mem, hrow2id, hrow2val⟩
          | none =>
            rw [hsnap2] at hd2full
            intro t ht
            rcases List.mem_append.1 ht with h | h
            · exact hd2full t h
            · rw [List.mem_singleton] at h
              rw [h]
              intro he
              apply h5h
              rw [show d.value = d2.value from he]
              exact List.mem_map_of_mem _ hd2)
      refine ⟨⟨c1, c2⟩, ?_, ?_, ?_⟩
      · intro t ht
        rcases c3 t ht with h | h
        · rw [List.map_append] at h
          rcases List.mem_append.1 h with h2 | h2
          · exact Or.inl h2
          · simp only [List.map_cons, List.map_nil, List.mem_singleton] at h2
            refine Or.inr ?_
            rw [List.map_cons, h2]
            exact List.mem_cons_self _ _
        · refine Or.inr ?_
          rw [List.map_cons]
          exact List.mem_cons_of_mem _ h
      · intro d2 hd2
        rcases List.mem_cons.1 hd2 with rfl | hd2r
        · exact ⟨_, c5 _ (List.mem_append_right _ (List.mem_singleton_self _))
            (by simpa using h5h), rfl, rfl, rfl⟩
        · exact c4 d2 hd2r
      · intro r hr hnv
        have hmem2 : r ∈ st.tags ++
            [{ id := ctr, value := d.value, display := d.display,
               sort_order := d.sort_order, parent_tag_id := d.parent_tag_id,
               has_children := false, created_at := now, updated_at := now }] :=
          List.mem_append_left _ hr
        refine c5 r hmem2 (fun hmem => hnv ?_)
        rw [List.map_cons]
        exact List.mem_cons_of_mem _ hmem

/-- The id set removed by the bulk delete of `bulkSave`: the cascade closure
of the tags whose value is absent from the input. -/
def bulkDeadIds (input : List TagInput) (s : DbState) : List Nat :=
  cascadeDead s.tags ((s.tags.filter (fun t2 =>
    !((input.map (fun d => d.value)).contains t2.value))).map (fun t2 => t2.id))

/-- The bulk delete is skipped when every existing value is kept. -/
theorem bulkDeleteStmt_of_empty (input : List TagInput) (s : DbState)
    (h : s.tags.filter (fun t2 =>
      !((input.map (fun d => d.value)).contains t2.value)) = []) :
    bulkDeleteStmt input s = s := by
  simp only [bulkDeleteStmt, h]
  simp

/-- The bulk delete with a non-empty victim list filters both tables by the
cascade closure. -/
theorem bulkDeleteStmt_of_nonempty (input : List TagInput) (s : DbState)
    (h : ¬ (s.tags.filter (fun t2 =>
      !((input.map (fun d => d.value)).contains t2.value)) = [])) :
    bulkDeleteStmt input s =
      { s with
        tags := s.tags.filter (fun t => !((bulkDeadIds input s).contains t.id)),
        placeTags := s.placeTags.filter
          (fun pt => !((bulkDeadIds input s).contains pt.2)) } := by
  simp only [bulkDeleteStmt]
  rw [if_neg h]
  rfl

/-- Every surviving row of the bulk delete is an original row whose value
occurs in the input. -/
theorem bulkDeleteStmt_mem (input : List TagInput) (s : DbState) :
    ∀ t ∈ (bulkDeleteStmt input s).tags, t ∈ s.tags ∧
      t.value ∈ input.map (fun d => d.value) := by
  intro t ht
  by_cases hdel : s.tags.filter (fun t2 =>
      !((input.map (fun d => d.value)).contains t2.value)) = []
  · rw [bulkDeleteStmt_of_empty input s hdel] at ht
    refine ⟨ht, ?_⟩
    have := List.filter_eq_nil_iff.1 hdel t ht
    simpa using this
  · rw [bulkDeleteStmt_of_nonempty input s hdel] at ht
    have htm := List.mem_of_mem_filter ht
    have htq := List.of_mem_filter ht
    refine ⟨htm, ?_⟩
    by_contra hnv
    have htd : t ∈ s.tags.filter (fun t2 =>
        !((input.map (fun d => d.value)).contains t2.value)) := by
      rw [List.mem_filter]
      exact ⟨htm, by simpa using hnv⟩
    have hdead : t.id ∈ bulkDeadIds input s :=
      cascadeAux_subset s.tags s.tags.length _ (List.mem_map_of_mem _ htd)
    have htq2 : t.id ∉ bulkDeadIds input s := by simpa using htq
    exact htq2 hdead

/-- A kept row outside the cascade survives the bulk delete. -/
theorem bulkDeleteStmt_keeps (input : List TagInput) (s : DbState) (t : Tag)
    (ht : t ∈ s.tags) (hdead : t.id ∉ bulkDeadIds input s) :
    t ∈ (bulkDeleteStmt input s).tags := by
  by_cases hdel : s.tags.filter (fun t2 =>
      !((input.map (fun d => d.value)).contains t2.value)) = []
  · rw [bulkDeleteStmt_of_empty input s hdel]
    exact ht
  · rw [bulkDeleteStmt_of_nonempty input s hdel]
    rw [List.mem_filter]
    exact ⟨ht, by simpa using hdead⟩

/-- The bulk delete keeps a sublist of the original rows. -/
theorem bulkDeleteStmt_sublist (input : List TagInput) (s : DbState) :
    (bulkDeleteStmt input s).tags.Sublist s.tags := by
  by_cases hdel : s.tags.filter (fun t2 =>
      !((input.map (fun d => d.value)).contains t2.value)) = []
  · rw [bulkDeleteStmt_of_empty input s hdel]
  · rw [bulkDeleteStmt_of_nonempty input s hdel]
    exact List.filter_sublist s.tags

/-- C3 amended: `bulkSave` is idempotent — running it twice with the same
input yields the same final tag set (by value, display, sort order) as
running it once — provided the bulk delete's referential cascade removes no
existing tag whose value the input keeps (the counterexample shows the
cascade through a deleted parent can otherwise drop a kept child, which only
the second run re-inserts).  Values are assumed unique in the input and in
the store, ids unique and below the fresh-id supply. -/
theorem bulkSave_idempotent_amended (input : List TagInput) (s : DbState)
    (now1 now2 nid1 nid2 : Nat)
    (hvi : (input.map (fun d => d.value)).Nodup)
    (hvs : (s.tags.map (fun t => t.value)).Nodup)
    (his : (s.tags.map (fun t => t.id)).Nodup)
    (hb : ∀ t ∈ s.tags, t.id < nid1)
    (hkeep : ∀ t ∈ s.tags, t.value ∈ input.map (fun d => d.value) →
      t.id ∉ bulkDeadIds input s) :
    (bulkSave input now2 nid2 (bulkSave input now1 nid1 s).1).1.tags.map tagProj
      = (bulkSave input now1 nid1 s).1.tags.map tagProj := by
  have hsub := bulkDeleteStmt_sublist input s
  have h1' : ((bulkDeleteStmt input s).tags.map (fun t => t.value)).Nodup :=
    (hsub.map (fun t => t.value)).nodup hvs
  have h2' : ((bulkDeleteStmt input s).tags.map (fun t => t.id)).Nodup :=
    (hsub.map (fun t => t.id)).nodup his
  have h3' : ∀ t ∈ (bulkDeleteStmt input s).tags, t.id < nid1 :=
    fun t ht => hb t (hsub.subset ht)
  have h6' : ∀ d ∈ input, match tagSnapshotGet s.tags d.value with
      | some ex => ∃ row ∈ (bulkDeleteStmt input s).tags,
          row.id = ex.id ∧ row.value = d.value
      | none => ∀ row ∈ (bulkDeleteStmt input s).tags, row.value ≠ d.value := by
    intro d hd
    cases hsnap : tagSnapshotGet s.tags d.value with
    | some ex =>
      obtain ⟨hexmem, hexval⟩ := tagSnapshotGet_some s.tags d.value ex hsnap
      have hexkeep : ex.id ∉ bulkDeadIds input s :=
        hkeep ex hexmem (by rw [hexval]; exact List.mem_map_of_mem _ hd)
      exact ⟨ex, bulkDeleteStmt_keeps input s ex hexmem hexkeep, rfl, hexval⟩
    | none =>
      intro row hrow
      exact tagSnapshotGet_none s.tags d.value hsnap row
        (bulkDeleteStmt_mem input s row hrow).1
  obtain ⟨⟨f3, f4⟩, fC3, fC4, _⟩ := bulk_fold_run s.tags now1 input
    (bulkDeleteStmt input s) nid1 h1' h2' h3' hb hvi h6'
  have hs1 : (bulkSave input now1 nid1 s).1
      = (input.foldl (bulkUpsertStep s.tags now1)
          (bulkDeleteStmt input s, nid1)).1 := rfl
  have hF1 : ∀ t ∈ (bulkSave input now1 nid1 s).1.tags,
      t.value ∈ input.map (fun d => d.value) := by
    intro t ht
    rw [hs1] at ht
    rcases fC3 t ht with h | h
    · simp only [List.mem_map] at h
      obtain ⟨r, hr, hrv⟩ := h
      have h2 := (bulkDeleteStmt_mem input s r hr).2
      rw [hrv] at h2
      exact h2
    · exact h
  have hF2 : ∀ d ∈ input, ∃ ex,
      tagSnapshotGet (bulkSave input now1 nid1 s).1.tags d.value = some ex ∧
        ex.display = d.display ∧ ex.sort_order = d.sort_order := by
    intro d hd
    obtain ⟨row, hrowmem, hrv, hrd, hrs⟩ := fC4 d hd
    refine ⟨row, ?_, hrd, hrs⟩
    rw [hs1, ← hrv]
    exact tagSnapshotGet_of_mem _ row hrowmem f3
  have hdel2 : bulkDeleteStmt input (bulkSave input now1 nid1 s).1
      = (bulkSave input now1 nid1 s).1 := by
    apply bulkDeleteStmt_of_empty
    rw [List.filter_eq_nil_iff]
    intro t ht
    simpa using hF1 t ht
  have hs2 : (bulkSave input now2 nid2 (bulkSave input now1 nid1 s).1).1
      = (input.foldl (bulkUpsertStep (bulkSave input now1 nid1 s).1.tags now2)
          (bulkDeleteStmt input (bulkSave input now1 nid1 s).1, nid2)).1 := rfl
  rw [hs2, hdel2]
  have hf4 : ((bulkSave input now1 nid1 s).1.tags.map (fun t => t.id)).Nodup := by
    rw [hs1]
    exact f4
  have hkey := bulk_fold_keyProj_fixed (bulkSave input now1 nid1 s).1.tags now2
    hf4 input (bulkSave input now1 nid1 s).1 nid2 hF2 rfl
  have hproj : ∀ (l : List Tag),
      l.map tagProj = (l.map tagKeyProj).map (fun x => x.2) := by
    intro l
    rw [List.map_map]
    rfl
  rw [hproj, hproj, hkey]

/-- Witness for the amended idempotence theorem: a concrete store (one tag
`a` with no children) and a concrete input keeping `a` and adding `b`
satisfy every hypothesis, and the double run equals the single run. -/
theorem bulkSave_idempotent_amended_witness :
    (bulkSave [⟨"a", "A2", 1, none⟩, ⟨"b", "B", 2, none⟩] 6 20
        (bulkSave [⟨"a", "A2", 1, none⟩, ⟨"b", "B", 2, none⟩] 5 10
          ⟨[⟨1, "a", "A", 0, none, false, 0, 0⟩], [], []⟩).1).1.tags.map tagProj
      = (bulkSave [⟨"a", "A2", 1, none⟩, ⟨"b", "B", 2, none⟩] 5 10
          ⟨[⟨1, "a", "A", 0, none, false, 0, 0⟩], [], []⟩).1.tags.map tagProj :=
  bulkSave_idempotent_amended [⟨"a", "A2", 1, none⟩, ⟨"b", "B", 2, none⟩]
    ⟨[⟨1, "a", "A", 0, none, false, 0, 0⟩], [], []⟩ 5 6 10 20
    (by decide) (by decide) (by decide) (by decide) (by decide)

end EVE
